import Mathlib

/-!
# Verification of the fallback-chain product-resolution engine

Shallow embedding of `src/backend/enhanced_amazon_agent.py`
(class `EnhancedAmazonProductAgent`) and proofs about the claims of the
specification.  Python strings are modelled as `List Char` / `String`,
Python `re` patterns as an explicit backtracking regex engine (`RE`, `mtch`)
with Python's leftmost, greedy-with-backtracking, first-alternative-first
semantics, and Python floats as exact rationals (the numeric literals
involved are small decimal fractions, where `Float` and `ℚ` agree).
Network effects (the four acquisition strategies) are inputs to the
orchestrator model.  `\s`, `str.strip`, `str.upper`, `str.lower` are
modelled on their ASCII behaviour; all constant phrases compared against
are ASCII, so the classifications are unchanged.
-/

set_option maxRecDepth 10000

namespace AmazonAgent

/-! ## Basic character and string utilities -/

/-- Python `\s` and `str.strip` whitespace (ASCII part). -/
def isSp (c : Char) : Bool :=
  c = ' ' || c = '\t' || c = '\n' || c = '\r' || c = '\x0b' || c = '\x0c'

/-- ASCII uppercase conversion, the behaviour of Python `str.upper` on ASCII. -/
def upChar (c : Char) : Char :=
  if c = 'a' then 'A' else if c = 'b' then 'B' else if c = 'c' then 'C' else
  if c = 'd' then 'D' else if c = 'e' then 'E' else if c = 'f' then 'F' else
  if c = 'g' then 'G' else if c = 'h' then 'H' else if c = 'i' then 'I' else
  if c = 'j' then 'J' else if c = 'k' then 'K' else if c = 'l' then 'L' else
  if c = 'm' then 'M' else if c = 'n' then 'N' else if c = 'o' then 'O' else
  if c = 'p' then 'P' else if c = 'q' then 'Q' else if c = 'r' then 'R' else
  if c = 's' then 'S' else if c = 't' then 'T' else if c = 'u' then 'U' else
  if c = 'v' then 'V' else if c = 'w' then 'W' else if c = 'x' then 'X' else
  if c = 'y' then 'Y' else if c = 'z' then 'Z' else c

/-- ASCII lowercase conversion, the behaviour of Python `str.lower` on ASCII
(all constant needles and pattern literals in the source are ASCII). -/
def lowChar (c : Char) : Char :=
  if c = 'A' then 'a' else if c = 'B' then 'b' else if c = 'C' then 'c' else
  if c = 'D' then 'd' else if c = 'E' then 'e' else if c = 'F' then 'f' else
  if c = 'G' then 'g' else if c = 'H' then 'h' else if c = 'I' then 'i' else
  if c = 'J' then 'j' else if c = 'K' then 'k' else if c = 'L' then 'l' else
  if c = 'M' then 'm' else if c = 'N' then 'n' else if c = 'O' then 'o' else
  if c = 'P' then 'p' else if c = 'Q' then 'q' else if c = 'R' then 'r' else
  if c = 'S' then 's' else if c = 'T' then 't' else if c = 'U' then 'u' else
  if c = 'V' then 'v' else if c = 'W' then 'w' else if c = 'X' then 'x' else
  if c = 'Y' then 'y' else if c = 'Z' then 'z' else c

/-- `[A-Z0-9]` (case sensitive). -/
def isUpAlnum (c : Char) : Bool := c.isUpper || c.isDigit

/-- `[A-Z0-9]` under `re.IGNORECASE`. -/
def alnumCI (c : Char) : Bool := c.isUpper || c.isLower || c.isDigit

/-- Python `needle in haystack` substring test. -/
def containsSub : List Char → List Char → Bool
  | [], n => n.isEmpty
  | h :: t, n => n.isPrefixOf (h :: t) || containsSub t n

def containsStr (h n : String) : Bool := containsSub h.data n.data

/-- Python `str.lower` (ASCII behaviour). -/
def lowerL (l : List Char) : List Char := l.map lowChar

/-- Remove trailing whitespace (the right half of Python `str.strip`). -/
def dropTrailingWs : List Char → List Char
  | [] => []
  | c :: t =>
    if (dropTrailingWs t).isEmpty && isSp c then [] else c :: dropTrailingWs t

/-- Python `str.strip()` (ASCII whitespace). -/
def pyStrip (l : List Char) : List Char := dropTrailingWs (l.dropWhile (fun c => isSp c))

/-- One pass of `re.sub(r'\s+', ' ', s)`: every maximal whitespace run becomes
one space.  The Boolean records whether we are inside a run. -/
def collapseWsAux : Bool → List Char → List Char
  | _, [] => []
  | inRun, c :: t =>
    if isSp c then
      if inRun then collapseWsAux true t else ' ' :: collapseWsAux true t
    else c :: collapseWsAux false t

/-- `re.sub(r'\s+', ' ', s)`. -/
def collapseWs (l : List Char) : List Char := collapseWsAux false l

/-- Python `str.replace` (simultaneous left-to-right non-overlapping), with
explicit fuel each step of which consumes at least one character. -/
def replaceAllF : Nat → List Char → List Char → List Char → List Char
  | 0, _, _, s => s
  | _ + 1, _, _, [] => []
  | f + 1, n, r, c :: s =>
    if n ≠ [] ∧ n.isPrefixOf (c :: s) then
      r ++ replaceAllF f n r (s.drop (n.length - 1))
    else c :: replaceAllF f n r s

def replaceAll (n r s : List Char) : List Char := replaceAllF s.length n r s

/-- `re.sub(r'<[^>]+>', '', s)`: at a `<`, the greedy `[^>]+` run must be
nonempty and be closed by a `>`; otherwise the `<` is kept and scanning
resumes at the next character (exactly the backtracking behaviour of the
Python pattern, which can never succeed with a shortened run). -/
def removeTagsF : Nat → List Char → List Char
  | 0, s => s
  | _ + 1, [] => []
  | f + 1, c :: s =>
    if c = '<' then
      let inner := s.takeWhile (fun x => x ≠ '>')
      if inner.length < s.length ∧ inner ≠ [] then
        removeTagsF f (s.drop (inner.length + 1))
      else c :: removeTagsF f s
    else c :: removeTagsF f s

def removeTags (s : List Char) : List Char := removeTagsF s.length s

/-- First-occurrence-preserving deduplication: `list(dict.fromkeys(xs))`. -/
def dedupFirstAux (seen : List String) : List String → List String
  | [] => []
  | x :: xs => if x ∈ seen then dedupFirstAux seen xs else x :: dedupFirstAux (x :: seen) xs

def dedupFirst (l : List String) : List String := dedupFirstAux [] l

def strOfL (l : List Char) : String := String.mk l

/-- Nat value of a digit string (used only on all-digit lists). -/
def natOfDigits (l : List Char) : Nat := l.foldl (fun a c => a * 10 + (c.toNat - 48)) 0

def allDigits (l : List Char) : Bool := l.all Char.isDigit

/-- Python `float` applied to a comma-free cleaned price string (digits and
dots only): at most one dot, at least one digit in total.  The exact decimal
value is represented as a scaled integer: `some (m, k)` stands for
`m / 10 ^ k` (so that the range comparisons below are exact integer
comparisons that the kernel can evaluate). -/
def parseDecParts (l : List Char) : Option (Nat × Nat) :=
  if l.count '.' = 0 then
    if l ≠ [] ∧ allDigits l then some (natOfDigits l, 0) else none
  else if l.count '.' = 1 then
    let ip := l.takeWhile (fun c => c ≠ '.')
    let fp := (l.dropWhile (fun c => c ≠ '.')).tail
    if allDigits ip ∧ allDigits fp ∧ (ip ≠ [] ∨ fp ≠ []) then
      some (natOfDigits ip * 10 ^ fp.length + natOfDigits fp, fp.length)
    else none
  else none

/-- The rational value denoted by a scaled-integer parse result. -/
def partsVal (p : Nat × Nat) : ℚ := (p.1 : ℚ) / (10 : ℚ) ^ p.2

/-- The numeric value Python's `float(...)` produces on the cleaned,
comma-free candidate (as an exact rational). -/
def parseDec (l : List Char) : Option ℚ := (parseDecParts l).map partsVal

/-! ## A small backtracking regex engine

Python `re` semantics for the fragment used by the source: leftmost match,
greedy quantifiers with backtracking, alternation tried left to right.
Characters are matched by Boolean classes (`re.IGNORECASE` is encoded in
the class).  `star` iterations must consume at least one character — every
starred subpattern in the source consumes at least one character anyway, so
this is Python's behaviour.  The fuel argument only bounds recursion depth
and is chosen large enough to be irrelevant (each `star` unrolling consumes
input). -/

inductive RE where
  | eps : RE
  | eos : RE
  | cls (p : Char → Bool) : RE
  | seq (a b : RE) : RE
  | alt (a b : RE) : RE
  | star (a : RE) : RE
deriving Inhabited

/-- CPS matcher: `mtch f r s k` tries to match `r` at the front of `s`, calling
the continuation `k` on the rest; on failure of a candidate the next
alternative is tried (backtracking). -/
def mtch {α : Type} : Nat → RE → List Char → (List Char → Option α) → Option α
  | 0, _, _, _ => none
  | _ + 1, .eps, s, k => k s
  | _ + 1, .eos, s, k => match s with | [] => k [] | _ :: _ => none
  | _ + 1, .cls _, [], _ => none
  | _ + 1, .cls p, c :: s, k => if p c then k s else none
  | f + 1, .seq a b, s, k => mtch f a s (fun s1 => mtch f b s1 k)
  | f + 1, .alt a b, s, k => (mtch f a s k).orElse (fun _ => mtch f b s k)
  | f + 1, .star a, s, k =>
      (mtch f a s (fun s1 =>
        if s1.length < s.length then mtch f (.star a) s1 k else none)).orElse
        (fun _ => k s)

/-- A chain of single-character classes, matched in order. -/
def clsChain (ps : List (Char → Bool)) : RE :=
  ps.foldr (fun p r => .seq (.cls p) r) .eps

/-- Case-sensitive literal. -/
def reLit (l : List Char) : RE := clsChain (l.map (fun c => fun x => x = c))

/-- Literal under `re.IGNORECASE` (ASCII folding). -/
def reLitCI (l : List Char) : RE := clsChain (l.map (fun c => fun x => lowChar x = lowChar c))

/-- `p+` (greedy). -/
def many1 (p : Char → Bool) : RE := .seq (.cls p) (.star (.cls p))

/-- `p?` (greedy). -/
def reOpt (r : RE) : RE := .alt r .eps

/-- `p{n}` for a character class. -/
def repCls (n : Nat) (p : Char → Bool) : RE := clsChain (List.replicate n p)

def digitC (c : Char) : Bool := c.isDigit

/-- `\d+(?:,\d+)*` — Indian-style price number. -/
def numComma : RE :=
  .seq (many1 digitC) (.star (.seq (.cls (fun c => c = ',')) (many1 digitC)))

/-- `\d+(?:\.\d{2})?` — western-style price number. -/
def numDec : RE :=
  .seq (many1 digitC) (reOpt (.seq (.cls (fun c => c = '.')) (repCls 2 digitC)))

/-- `\s*`. -/
def wsStar : RE := .star (.cls isSp)

/-- A search pattern with exactly one capturing group: `pre(grp)post`. -/
structure Pat where
  pre : RE
  grp : RE
  post : RE

/-- Depth fuel for the matcher: far beyond what any pattern of the source can
consume on input `s` (each star unrolling consumes a character). -/
def fuelFor (s : List Char) : Nat := s.length * 100 + 1000

/-- Try to match `p` anchored at the start of `s` (Python `re.match`).
Returns the captured group and the remainder after the whole match. -/
def matchPatAt (p : Pat) (s : List Char) : Option (List Char × List Char) :=
  match mtch (fuelFor s) p.pre s (fun s1 =>
          mtch (fuelFor s) p.grp s1 (fun s2 =>
            mtch (fuelFor s) p.post s2 (fun s3 => some (s1, s2, s3)))) with
  | some (s1, s2, s3) => some (s1.take (s1.length - s2.length), s3)
  | none => none

/-- Python `re.search`: try every start position left to right.  Returns
(start index of the match, captured group, end index of the match). -/
def searchFullAux (p : Pat) : Nat → List Char → Option (Nat × List Char × Nat)
  | pos, [] =>
    match matchPatAt p [] with
    | some (cap, s3) => some (pos, cap, pos + (List.length ([] : List Char) - s3.length))
    | none => none
  | pos, c :: t =>
    match matchPatAt p (c :: t) with
    | some (cap, s3) => some (pos, cap, pos + ((c :: t).length - s3.length))
    | none => searchFullAux p (pos + 1) t

def searchFull (p : Pat) (s : List Char) : Option (Nat × List Char × Nat) :=
  searchFullAux p 0 s

/-- The captured group of the leftmost match (`m.group(1)` of `re.search`). -/
def searchCap (p : Pat) (s : List Char) : Option (List Char) :=
  (searchFull p s).map (fun r => r.2.1)

/-- Python `re.findall` with one group: all non-overlapping matches' groups,
scanning left to right and resuming after each match end (if a match were
empty, scanning advances one character, as in Python — the source's patterns
never match empty). -/
def findallF (p : Pat) : Nat → List Char → List (List Char)
  | 0, _ => []
  | f + 1, s =>
    match matchPatAt p s with
    | some (cap, rest) =>
      if rest.length < s.length then cap :: findallF p f rest
      else cap :: (match rest with | [] => [] | _ :: t => findallF p f t)
    | none =>
      match s with
      | [] => []
      | _ :: t => findallF p f t

def findallPat (p : Pat) (s : List Char) : List (List Char) :=
  findallF p (s.length + 1) s

/-! ## Identifier Extractor (`extract_asin`, source lines 55–80)

The seven URL patterns are searched with `re.IGNORECASE`; the bare-ASIN
check `re.match(r'^[A-Z0-9]{10}$', input.upper())` is anchored and case
sensitive (the input is uppercased first).  `$` is modelled by `eos`, which
agrees with Python on stripped input (no trailing newline). -/

/-- `([A-Z0-9]{10})` with `re.IGNORECASE`. -/
def asinGroup : RE := repCls 10 alnumCI

def patDp : Pat := ⟨reLitCI ("/dp/").data, asinGroup, .eps⟩
def patGp : Pat := ⟨reLitCI ("/gp/product/").data, asinGroup, .eps⟩
def patAsinSeg : Pat := ⟨reLitCI ("/ASIN/").data, asinGroup, .eps⟩
def patProduct : Pat := ⟨reLitCI ("/product/").data, asinGroup, .eps⟩
def patDSeg : Pat := ⟨reLitCI ("/d/").data, asinGroup, .eps⟩
def patAsinEq : Pat := ⟨reLitCI ("asin=").data, asinGroup, .eps⟩
/-- `/([A-Z0-9]{10})(?:[/?]|$)`. -/
def patLoose : Pat :=
  ⟨reLitCI ("/").data, asinGroup, .alt (.cls (fun c => c = '/' || c = '?')) .eos⟩

def asinPatterns : List Pat :=
  [patDp, patGp, patAsinSeg, patProduct, patDSeg, patAsinEq, patLoose]

/-- `^[A-Z0-9]{10}$` (no IGNORECASE; applied to the uppercased input). -/
def bareAsinPat : Pat := ⟨.eps, repCls 10 isUpAlnum, .eos⟩

def extractAsinLoop (l : List Char) : List Pat → Option String
  | [] => none
  | p :: ps =>
    match searchCap p l with
    | some cap => some (strOfL (cap.map upChar))
    | none => extractAsinLoop l ps

/-- `extract_asin`: strip, accept a bare 10-character alphanumeric code
uppercased, otherwise try the URL patterns in order and uppercase the first
captured group; `None` if nothing matches. -/
def extract_asin (input_data : String) : Option String :=
  if (matchPatAt bareAsinPat ((pyStrip input_data.data).map upChar)).isSome then
    some (strOfL ((pyStrip input_data.data).map upChar))
  else extractAsinLoop (pyStrip input_data.data) asinPatterns

/-! ## Marketplace resolution (`get_amazon_domain`, source lines 82–105) -/

/-- `get_amazon_domain`: substring checks in the source's order, defaulting
to `amazon.com`. -/
def get_amazon_domain (input_data : String) : String :=
  if containsStr input_data ("amazon.in") then ("amazon.in")
  else if containsStr input_data ("amazon.co.uk") then ("amazon.co.uk")
  else if containsStr input_data ("amazon.ca") then ("amazon.ca")
  else if containsStr input_data ("amazon.de") then ("amazon.de")
  else if containsStr input_data ("amazon.fr") then ("amazon.fr")
  else if containsStr input_data ("amazon.it") then ("amazon.it")
  else if containsStr input_data ("amazon.es") then ("amazon.es")
  else if containsStr input_data ("amazon.com.au") then ("amazon.com.au")
  else if containsStr input_data ("amazon.com.br") then ("amazon.com.br")
  else if containsStr input_data ("amazon.co.jp") then ("amazon.co.jp")
  else ("amazon.com")

/-- The expected-currency chain opening `_extract_price_with_currency`
(source lines 420–432): note `amazon.com` is tested second, before
`amazon.co.uk` and `amazon.com.au`; unmatched input leaves the hint empty. -/
def expectedCurrencyFor (original_url : String) : String :=
  if containsStr original_url ("amazon.in") then ("INR")
  else if containsStr original_url ("amazon.com") then ("USD")
  else if containsStr original_url ("amazon.co.uk") then ("GBP")
  else if containsStr original_url ("amazon.de") then ("EUR")
  else if containsStr original_url ("amazon.ca") then ("CAD")
  else if containsStr original_url ("amazon.com.au") then ("AUD")
  else ("")

/-! ## Price validation (`_is_valid_price` lines 725–750,
`_is_valid_fallback_price` lines 664–685) -/

/-- `re.sub(r'[^\d.,]', '', v)`: keep digits, dots and commas. -/
def cleanPriceChars (v : List Char) : List Char :=
  v.filter (fun c => c.isDigit || c = '.' || c = ',')

/-- `_is_valid_price`: structured-mode validation.  Empty input and
candidates with fewer than 2 cleaned characters are rejected; a cleaned
value that is exactly the single character `0` is rejected (dead after the
length test, kept for fidelity); the comma-free value must parse and lie in
[1, 1000000]. -/
def is_valid_price (price_value : String) : Bool :=
  if price_value.data.isEmpty then false
  else
    let clean := cleanPriceChars price_value.data
    if clean.length < 2 then false
    else if clean.take 1 = ['0'] ∧ clean.length = 1 then false
    else
      match parseDecParts (clean.filter (fun c => c ≠ ',')) with
      | none => false
      | some (m, k) =>
        -- m / 10^k < 1  ∨  m / 10^k > 1000000, as exact integer comparisons
        if m < 10 ^ k ∨ m > 1000000 * 10 ^ k then false else true

/-- `_is_valid_fallback_price`: lenient validation, range [0.01, 10000000],
no leading-zero test. -/
def is_valid_fallback_price (price_value : String) : Bool :=
  if price_value.data.isEmpty then false
  else
    let clean := cleanPriceChars price_value.data
    if clean.length < 2 then false
    else
      match parseDecParts (clean.filter (fun c => c ≠ ',')) with
      | none => false
      | some (m, k) =>
        -- m / 10^k < 1/100  ∨  m / 10^k > 10000000, as exact integer comparisons
        if 100 * m < 10 ^ k ∨ m > 10000000 * 10 ^ k then false else true

/-! ## Content Validity Classifier (`_has_real_product_data`, lines 687–723) -/

def error_indicators : List String :=
  [("Sorry, we just need to make sure you\x27re not a robot"),
   ("Enter the characters you see below"),
   ("Type the characters you see in this image"),
   ("To discuss automated access to Amazon data please contact"),
   ("Robot Check"),
   ("captcha"),
   ("blocked")]

def product_indicators : List String :=
  [("productTitle"),
   ("feature-bullets"),
   ("productDescription"),
   ("a-price"),
   ("a-offscreen"),
   ("data-old-hires"),
   ("data-a-dynamic-image")]

/-- `_has_real_product_data`: any error indicator present (case-insensitive)
classifies the page as not-a-product; otherwise at least 2 of the product
indicators (case-sensitive) must be present. -/
def has_real_product_data (html : String) : Bool :=
  if error_indicators.any (fun e => containsSub (lowerL html.data) (lowerL e.data)) then
    false
  else if 2 ≤ product_indicators.countP (fun i => containsSub html.data i.data) then
    true
  else false

/-! ## Price/Currency Extractor (`_extract_price_with_currency`, lines
415–586, and `_extract_fallback_price`, lines 588–662)

All price patterns are searched with `re.IGNORECASE`. -/

structure PriceRec where
  original : String
  discounted : String
  currency : String
deriving DecidableEq, Repr

def emptyPrice : PriceRec := ⟨(""), (""), ("")⟩

/-- One `(regex, symbol, currency_code)` row of a pattern table. -/
structure PatRow where
  pat : Pat
  symbol : String
  code : String

/-- `₹(\d+(?:,\d+)*)`. -/
def rowRupeeSym : PatRow := ⟨⟨.cls (fun c => c = '₹'), numComma, .eps⟩, ("₹"), ("INR")⟩
/-- `Rs\.?\s*(\d+(?:,\d+)*)`. -/
def rowRupeeRs : PatRow :=
  ⟨⟨.seq (reLitCI ("Rs").data) (.seq (reOpt (.cls (fun c => c = '.'))) wsStar),
    numComma, .eps⟩, ("₹"), ("INR")⟩
/-- `INR\s*(\d+(?:,\d+)*)`. -/
def rowRupeeInr : PatRow :=
  ⟨⟨.seq (reLitCI ("INR").data) wsStar, numComma, .eps⟩, ("₹"), ("INR")⟩
/-- `£(\d+(?:\.\d{2})?)`. -/
def rowGbpSym : PatRow := ⟨⟨.cls (fun c => c = '£'), numDec, .eps⟩, ("£"), ("GBP")⟩
/-- `GBP\s*(\d+(?:\.\d{2})?)`. -/
def rowGbpCode : PatRow :=
  ⟨⟨.seq (reLitCI ("GBP").data) wsStar, numDec, .eps⟩, ("£"), ("GBP")⟩
/-- `\$(\d+(?:\.\d{2})?)`. -/
def rowUsdSym : PatRow := ⟨⟨.cls (fun c => c = '$'), numDec, .eps⟩, ("$"), ("USD")⟩
/-- `USD\s*(\d+(?:\.\d{2})?)`. -/
def rowUsdCode : PatRow :=
  ⟨⟨.seq (reLitCI ("USD").data) wsStar, numDec, .eps⟩, ("$"), ("USD")⟩
/-- `€(\d+(?:\.\d{2})?)`. -/
def rowEurSym : PatRow := ⟨⟨.cls (fun c => c = '€'), numDec, .eps⟩, ("€"), ("EUR")⟩
/-- `EUR\s*(\d+(?:\.\d{2})?)`. -/
def rowEurCode : PatRow :=
  ⟨⟨.seq (reLitCI ("EUR").data) wsStar, numDec, .eps⟩, ("€"), ("EUR")⟩
/-- `C\$\s*(\d+(?:\.\d{2})?)`. -/
def rowCadSym : PatRow :=
  ⟨⟨.seq (reLitCI ("C").data) (.seq (.cls (fun c => c = '$')) wsStar), numDec, .eps⟩,
   ("C$"), ("CAD")⟩
/-- `CAD\s*(\d+(?:\.\d{2})?)`. -/
def rowCadCode : PatRow :=
  ⟨⟨.seq (reLitCI ("CAD").data) wsStar, numDec, .eps⟩, ("C$"), ("CAD")⟩
/-- `A\$\s*(\d+(?:\.\d{2})?)`. -/
def rowAudSym : PatRow :=
  ⟨⟨.seq (reLitCI ("A").data) (.seq (.cls (fun c => c = '$')) wsStar), numDec, .eps⟩,
   ("A$"), ("AUD")⟩
/-- `AUD\s*(\d+(?:\.\d{2})?)`. -/
def rowAudCode : PatRow :=
  ⟨⟨.seq (reLitCI ("AUD").data) wsStar, numDec, .eps⟩, ("A$"), ("AUD")⟩

def notGt (c : Char) : Bool := !(c = '>')
def notQuote (c : Char) : Bool := !(c = '"')
def notLt (c : Char) : Bool := !(c = '<')

/-- `<span[^>]*class="[^"]*a-price-whole[^"]*"[^>]*>(\d+(?:,\d+)*)</span>`. -/
def rowGenericWhole : PatRow :=
  ⟨⟨.seq (reLitCI ("<span").data) (.seq (.star (.cls notGt))
     (.seq (reLitCI ("class=\"").data) (.seq (.star (.cls notQuote))
       (.seq (reLitCI ("a-price-whole").data) (.seq (.star (.cls notQuote))
         (.seq (reLitCI ("\"").data) (.seq (.star (.cls notGt)) (reLitCI (">").data)))))))),
    numComma, reLitCI ("</span>").data⟩, (""), ("")⟩

/-- `<span[^>]*class="[^"]*a-offscreen[^"]*"[^>]*>([^<]+)</span>`. -/
def rowGenericOffscreen : PatRow :=
  ⟨⟨.seq (reLitCI ("<span").data) (.seq (.star (.cls notGt))
     (.seq (reLitCI ("class=\"").data) (.seq (.star (.cls notQuote))
       (.seq (reLitCI ("a-offscreen").data) (.seq (.star (.cls notQuote))
         (.seq (reLitCI ("\"").data) (.seq (.star (.cls notGt)) (reLitCI (">").data)))))))),
    many1 notLt, reLitCI ("</span>").data⟩, (""), ("")⟩

/-- The pattern table of `_extract_price_with_currency`: INR rows first when
the expected currency is INR (lines 446–476), otherwise GBP first and INR
last (lines 479–509); the two generic rows close both tables. -/
def pricePatterns (expected_currency : String) : List PatRow :=
  if expected_currency = ("INR") then
    [rowRupeeSym, rowRupeeRs, rowRupeeInr,
     rowGbpSym, rowGbpCode, rowUsdSym, rowUsdCode, rowEurSym, rowEurCode,
     rowCadSym, rowCadCode, rowAudSym, rowAudCode,
     rowGenericWhole, rowGenericOffscreen]
  else
    [rowGbpSym, rowGbpCode, rowUsdSym, rowUsdCode, rowEurSym, rowEurCode,
     rowCadSym, rowCadCode, rowAudSym, rowAudCode,
     rowRupeeSym, rowRupeeRs, rowRupeeInr,
     rowGenericWhole, rowGenericOffscreen]

/-- First pass (lines 512–521): for each specific row in order, take the
leftmost match; if its captured value validates, return symbol-prefixed
price data at once, otherwise move to the next row. -/
def firstPassLoop (html : List Char) : List PatRow → Option PriceRec
  | [] => none
  | r :: rs =>
    match searchCap r.pat html with
    | some cap =>
      if is_valid_price (strOfL cap) then
        some ⟨r.symbol ++ strOfL cap, r.symbol ++ strOfL cap, r.code⟩
      else firstPassLoop html rs
    | none => firstPassLoop html rs

/-- The six-way expected-currency assignment chain (lines 531–555 and
636–659): an expected currency outside the six leaves the record empty,
exactly as the chain falls through without assigning. -/
def currencyAssign (expected : String) (v : String) : PriceRec :=
  if expected = ("INR") then ⟨("₹") ++ v, ("₹") ++ v, ("INR")⟩
  else if expected = ("USD") then ⟨("$") ++ v, ("$") ++ v, ("USD")⟩
  else if expected = ("GBP") then ⟨("£") ++ v, ("£") ++ v, ("GBP")⟩
  else if expected = ("EUR") then ⟨("€") ++ v, ("€") ++ v, ("EUR")⟩
  else if expected = ("CAD") then ⟨("C$") ++ v, ("C$") ++ v, ("CAD")⟩
  else if expected = ("AUD") then ⟨("A$") ++ v, ("A$") ++ v, ("AUD")⟩
  else emptyPrice

/-- Context-based currency detection for the generic pass with no domain
hint (lines 557–582): inspect ±100 characters around the match and default
to USD. -/
def contextAssign (context : List Char) (v : String) : PriceRec :=
  if containsSub context ("₹").data || containsSub context ("INR").data then
    ⟨("₹") ++ v, ("₹") ++ v, ("INR")⟩
  else if containsSub context ("$").data || containsSub context ("USD").data then
    ⟨("$") ++ v, ("$") ++ v, ("USD")⟩
  else if containsSub context ("£").data || containsSub context ("GBP").data then
    ⟨("£") ++ v, ("£") ++ v, ("GBP")⟩
  else if containsSub context ("€").data || containsSub context ("EUR").data then
    ⟨("€") ++ v, ("€") ++ v, ("EUR")⟩
  else ⟨("$") ++ v, ("$") ++ v, ("USD")⟩

/-- Second pass over the two generic rows (lines 524–584): first valid match
breaks out of the loop; currency comes from the domain hint when present,
otherwise from the ±100-character context. -/
def secondPassLoop (html : List Char) (expected : String) : List PatRow → PriceRec
  | [] => emptyPrice
  | r :: rs =>
    match searchFull r.pat html with
    | some (st, cap, en) =>
      if is_valid_price (strOfL cap) then
        if expected ≠ ("") then currencyAssign expected (strOfL cap)
        else
          let cs := st - 100
          let ce := min html.length (en + 100)
          contextAssign ((html.drop cs).take (ce - cs)) (strOfL cap)
      else secondPassLoop html expected rs
    | none => secondPassLoop html expected rs

/-- The fallback pattern table (lines 593–622): GBP first, INR last, closed
by the lenient bare-number row `(\d{2,4}(?:,\d{3})*(?:\.\d{2})?)`. -/
def rowBareNumber : PatRow :=
  ⟨⟨.eps,
    .seq (.seq (.cls digitC) (.seq (.cls digitC)
           (reOpt (.seq (.cls digitC) (reOpt (.cls digitC))))))
      (.seq (.star (.seq (.cls (fun c => c = ',')) (repCls 3 digitC)))
        (reOpt (.seq (.cls (fun c => c = '.')) (repCls 2 digitC)))),
    .eps⟩, (""), ("")⟩

def fallbackPatterns : List PatRow :=
  [rowGbpSym, rowGbpCode, rowUsdSym, rowUsdCode, rowEurSym, rowEurCode,
   rowCadSym, rowCadCode, rowAudSym, rowAudCode,
   rowRupeeSym, rowRupeeRs, rowRupeeInr,
   rowBareNumber]

/-- Inner loop of `_extract_fallback_price` (lines 624–660) over all matches
of one row: the first match passing the lenient validation returns —
symbol-prefixed for a currency row, else via the expected-currency chain if
a hint exists; a valid bare-number match with no hint just keeps scanning. -/
def fallbackInner (row : PatRow) (expected : String) : List (List Char) → Option PriceRec
  | [] => none
  | m :: ms =>
    if is_valid_fallback_price (strOfL m) then
      if row.code ≠ ("") then
        some ⟨row.symbol ++ strOfL m, row.symbol ++ strOfL m, row.code⟩
      else if expected ≠ ("") then some (currencyAssign expected (strOfL m))
      else fallbackInner row expected ms
    else fallbackInner row expected ms

def fallbackOuter (html : List Char) (expected : String) : List PatRow → Option PriceRec
  | [] => none
  | row :: rows =>
    match fallbackInner row expected (findallPat row.pat html) with
    | some r => some r
    | none => fallbackOuter html expected rows

/-- `_extract_fallback_price`. -/
def extract_fallback_price (html : String) (expected_currency : String) : PriceRec :=
  match fallbackOuter html.data expected_currency fallbackPatterns with
  | some r => r
  | none => emptyPrice

/-- `_extract_price_with_currency`.  When the page has no real product data
the fallback extractor's record is returned unconditionally (in the source,
`if fallback_price:` tests a dict that is always truthy). -/
def extract_price_with_currency (html : String) (original_url : String) : PriceRec :=
  if has_real_product_data html = false then
    extract_fallback_price html (expectedCurrencyFor original_url)
  else
    match firstPassLoop html.data
        ((pricePatterns (expectedCurrencyFor original_url)).dropLast.dropLast) with
    | some r => r
    | none =>
      secondPassLoop html.data (expectedCurrencyFor original_url)
        ((pricePatterns (expectedCurrencyFor original_url)).drop
          ((pricePatterns (expectedCurrencyFor original_url)).length - 2))

/-! ## Description cleaning (`_clean_description`, lines 107–148) -/

def prefixes_to_remove : List String :=
  [("About this item"), ("About this Item"), ("ABOUT THIS ITEM"),
   ("Product Description"), ("Description"),
   ("Features:"), ("Features :"), ("FEATURES:"), ("FEATURES :")]

/-- The prefix-stripping loop: each prefix is tested once, in order, against
the current text; a match removes it and strips whitespace. -/
def stripPrefixes : List String → List Char → List Char
  | [], d => d
  | p :: ps, d =>
    stripPrefixes ps (if p.data.isPrefixOf d then pyStrip (d.drop p.data.length) else d)

/-- `_clean_description`: strip boilerplate prefixes, collapse whitespace,
decode six HTML entities, remove tags, collapse whitespace again, trim. -/
def clean_description (description : String) : String :=
  if description.data.isEmpty then ("")
  else
    strOfL (pyStrip (collapseWs (removeTags (
      replaceAll ("&nbsp;").data (" ").data (
      replaceAll ("&gt;").data (">").data (
      replaceAll ("&lt;").data ("<").data (
      replaceAll ("&#39;").data ("\x27").data (
      replaceAll ("&quot;").data ("\"").data (
      replaceAll ("&amp;").data ("&").data (
      pyStrip (collapseWs (stripPrefixes prefixes_to_remove description.data))))))))))))

/-! ## Enhanced-parser image extraction
(`_parse_amazon_html_enhanced`, lines 796–823) -/

/-- `data-old-hires="([^"]+)"`. -/
def imgPat1 : Pat := ⟨reLitCI ("data-old-hires=\"").data, many1 notQuote, reLitCI ("\"").data⟩
/-- `data-a-dynamic-image="([^"]+)"`. -/
def imgPat2 : Pat :=
  ⟨reLitCI ("data-a-dynamic-image=\"").data, many1 notQuote, reLitCI ("\"").data⟩

/-- `[^"]*amazon[^"]*\.(?:jpg|jpeg|png|webp)[^"]*` (the group of the third
image pattern, searched with IGNORECASE). -/
def amazonUrlGroupCI : RE :=
  .seq (.star (.cls notQuote)) (.seq (reLitCI ("amazon").data)
    (.seq (.star (.cls notQuote)) (.seq (.cls (fun c => c = '.'))
      (.seq (.alt (reLitCI ("jpg").data) (.alt (reLitCI ("jpeg").data)
               (.alt (reLitCI ("png").data) (reLitCI ("webp").data))))
        (.star (.cls notQuote))))))

/-- `src="([^"]*amazon[^"]*\.(?:jpg|jpeg|png|webp)[^"]*)"`. -/
def imgPat3 : Pat := ⟨reLitCI ("src=\"").data, amazonUrlGroupCI, reLitCI ("\"").data⟩

/-- Case-sensitive variant of the URL group, used by the JSON-unwrapping
`re.findall` (line 817), which passes no flags. -/
def amazonUrlGroupCS : RE :=
  .seq (.star (.cls notQuote)) (.seq (reLit ("amazon").data)
    (.seq (.star (.cls notQuote)) (.seq (.cls (fun c => c = '.'))
      (.seq (.alt (reLit ("jpg").data) (.alt (reLit ("jpeg").data)
               (.alt (reLit ("png").data) (reLit ("webp").data))))
        (.star (.cls notQuote))))))

/-- `"([^"]*amazon[^"]*\.(?:jpg|jpeg|png|webp)[^"]*)"` — no flags. -/
def jsonInnerPat : Pat := ⟨reLit ("\"").data, amazonUrlGroupCS, reLit ("\"").data⟩

/-- The raw collection loop (lines 803–810): for each of the three patterns,
append every nonempty match not already present; appended entries have
`&quot;` and `&#39;` decoded (the membership test is against the raw match,
as in the source). -/
def collectImgs (html : List Char) : List String :=
  [imgPat1, imgPat2, imgPat3].foldl
    (fun acc p =>
      (findallPat p html).foldl
        (fun acc m =>
          let mstr := strOfL m
          if mstr ≠ ("") ∧ mstr ∉ acc then
            acc ++ [strOfL (replaceAll ("&quot;").data ("\"").data
                      (replaceAll ("&#39;").data ("\x27").data m))]
          else acc)
        acc)
    []

/-- JSON-string unwrapping (lines 813–820) of one collected URL. -/
def unwrapUrl (url : String) : List String :=
  if url.data.take 1 = ['\x7b'] ∧ url.data.getLast? = some '\x7d' then
    (findallPat jsonInnerPat url.data).map strOfL
  else [url]

/-- The `image_urls` field produced by `_parse_amazon_html_enhanced`:
collect raw matches (deduplicated on append), keep only the first 10 for
cleaning (`image_urls[:10]`, line 814), unwrap JSON-like entries, and
deduplicate keeping first occurrences (`list(dict.fromkeys(...))`). -/
def enhanced_image_urls (html : String) : List String :=
  dedupFirst (((collectImgs html.data).take 10).foldl (fun acc u => acc ++ unwrapUrl u) [])

/-! ## Fallback Orchestrator (`get_product_info`, lines 836–890)

The four strategies perform network fetches; their outcomes are an input
`fetch : String → Option ProductD` of the model, mapping a method name to
its parsed record (`none` covers fetch failure, parse failure and a raised
exception, all of which the loop treats alike). -/

structure ProductD where
  product_name : String
  price : PriceRec
  description : String
  variants : List String
  image_urls : List String
deriving DecidableEq, Repr

inductive ResolveResult where
  | ok (record : ProductD) (source_method : String) (asin : String)
  | invalidInput (input_received : String)
  | allFailed (asin : String) (tried_methods : List String)
deriving DecidableEq, Repr

/-- The fixed strategy order of the `methods` list (lines 862–867). -/
def methodNames : List String :=
  [("rainforest_api"), ("scraperapi"), ("rapidapi"), ("direct_amazon")]

/-- The `for method_name, method_func in methods` loop (lines 869–882): a
result with a truthy (non-empty) `product_name` is returned at once, tagged
with the method name. -/
def tryMethods (fetch : String → Option ProductD) : List String → Option (ProductD × String)
  | [] => none
  | n :: ns =>
    match fetch n with
    | some r => if r.product_name ≠ ("") then some (r, n) else tryMethods fetch ns
    | none => tryMethods fetch ns

/-- `get_product_info`: extract the identifier (terminal error when absent),
then try the four strategies in order, short-circuiting on the first
non-empty `product_name`; exhaustion returns the error record listing
`tried_methods`. -/
def get_product_info (input_data : String) (fetch : String → Option ProductD) :
    ResolveResult :=
  match extract_asin input_data with
  | none => .invalidInput input_data
  | some asin =>
    match tryMethods fetch methodNames with
    | some (r, n) => .ok r n asin
    | none => .allFailed asin methodNames

/-! ## Helper lemmas: characters -/

theorem char_eq_of_toNat {c d : Char} (h : c.val.toNat = d.val.toNat) : c = d :=
  Char.ext (UInt32.ext h)

theorem lower_enum (c : Char) (h : c.isLower = true) :
    c = 'a' ∨ c = 'b' ∨ c = 'c' ∨ c = 'd' ∨ c = 'e' ∨ c = 'f' ∨ c = 'g' ∨ c = 'h' ∨
    c = 'i' ∨ c = 'j' ∨ c = 'k' ∨ c = 'l' ∨ c = 'm' ∨ c = 'n' ∨ c = 'o' ∨ c = 'p' ∨
    c = 'q' ∨ c = 'r' ∨ c = 's' ∨ c = 't' ∨ c = 'u' ∨ c = 'v' ∨ c = 'w' ∨ c = 'x' ∨
    c = 'y' ∨ c = 'z' := by
  have h1 : 97 ≤ c.val.toNat ∧ c.val.toNat ≤ 122 := by
    unfold Char.isLower at h
    simp only [decide_eq_true_eq, Bool.and_eq_true] at h
    exact ⟨h.1, h.2⟩
  have h2 : c.val.toNat = 97 ∨ c.val.toNat = 98 ∨ c.val.toNat = 99 ∨ c.val.toNat = 100 ∨
      c.val.toNat = 101 ∨ c.val.toNat = 102 ∨ c.val.toNat = 103 ∨ c.val.toNat = 104 ∨
      c.val.toNat = 105 ∨ c.val.toNat = 106 ∨ c.val.toNat = 107 ∨ c.val.toNat = 108 ∨
      c.val.toNat = 109 ∨ c.val.toNat = 110 ∨ c.val.toNat = 111 ∨ c.val.toNat = 112 ∨
      c.val.toNat = 113 ∨ c.val.toNat = 114 ∨ c.val.toNat = 115 ∨ c.val.toNat = 116 ∨
      c.val.toNat = 117 ∨ c.val.toNat = 118 ∨ c.val.toNat = 119 ∨ c.val.toNat = 120 ∨
      c.val.toNat = 121 ∨ c.val.toNat = 122 := by omega
  rcases h2 with h|h|h|h|h|h|h|h|h|h|h|h|h|h|h|h|h|h|h|h|h|h|h|h|h|h <;>
    first
    | (have e : c = 'a' := char_eq_of_toNat (h.trans (by decide)); subst e; decide)
    | (have e : c = 'b' := char_eq_of_toNat (h.trans (by decide)); subst e; decide)
    | (have e : c = 'c' := char_eq_of_toNat (h.trans (by decide)); subst e; decide)
    | (have e : c = 'd' := char_eq_of_toNat (h.trans (by decide)); subst e; decide)
    | (have e : c = 'e' := char_eq_of_toNat (h.trans (by decide)); subst e; decide)
    | (have e : c = 'f' := char_eq_of_toNat (h.trans (by decide)); subst e; decide)
    | (have e : c = 'g' := char_eq_of_toNat (h.trans (by decide)); subst e; decide)
    | (have e : c = 'h' := char_eq_of_toNat (h.trans (by decide)); subst e; decide)
    | (have e : c = 'i' := char_eq_of_toNat (h.trans (by decide)); subst e; decide)
    | (have e : c = 'j' := char_eq_of_toNat (h.trans (by decide)); subst e; decide)
    | (have e : c = 'k' := char_eq_of_toNat (h.trans (by decide)); subst e; decide)
    | (have e : c = 'l' := char_eq_of_toNat (h.trans (by decide)); subst e; decide)
    | (have e : c = 'm' := char_eq_of_toNat (h.trans (by decide)); subst e; decide)
    | (have e : c = 'n' := char_eq_of_toNat (h.trans (by decide)); subst e; decide)
    | (have e : c = 'o' := char_eq_of_toNat (h.trans (by decide)); subst e; decide)
    | (have e : c = 'p' := char_eq_of_toNat (h.trans (by decide)); subst e; decide)
    | (have e : c = 'q' := char_eq_of_toNat (h.trans (by decide)); subst e; decide)
    | (have e : c = 'r' := char_eq_of_toNat (h.trans (by decide)); subst e; decide)
    | (have e : c = 's' := char_eq_of_toNat (h.trans (by decide)); subst e; decide)
    | (have e : c = 't' := char_eq_of_toNat (h.trans (by decide)); subst e; decide)
    | (have e : c = 'u' := char_eq_of_toNat (h.trans (by decide)); subst e; decide)
    | (have e : c = 'v' := char_eq_of_toNat (h.trans (by decide)); subst e; decide)
    | (have e : c = 'w' := char_eq_of_toNat (h.trans (by decide)); subst e; decide)
    | (have e : c = 'x' := char_eq_of_toNat (h.trans (by decide)); subst e; decide)
    | (have e : c = 'y' := char_eq_of_toNat (h.trans (by decide)); subst e; decide)
    | (have e : c = 'z' := char_eq_of_toNat (h.trans (by decide)); subst e; decide)

theorem upChar_id_of_not_lower (c : Char) (h : c.isLower = false) : upChar c = c := by
  have na : c ≠ 'a' := fun e => absurd (e ▸ h) (by decide)
  have nb : c ≠ 'b' := fun e => absurd (e ▸ h) (by decide)
  have nc : c ≠ 'c' := fun e => absurd (e ▸ h) (by decide)
  have nd : c ≠ 'd' := fun e => absurd (e ▸ h) (by decide)
  have ne' : c ≠ 'e' := fun e => absurd (e ▸ h) (by decide)
  have nf : c ≠ 'f' := fun e => absurd (e ▸ h) (by decide)
  have ng : c ≠ 'g' := fun e => absurd (e ▸ h) (by decide)
  have nh : c ≠ 'h' := fun e => absurd (e ▸ h) (by decide)
  have ni : c ≠ 'i' := fun e => absurd (e ▸ h) (by decide)
  have nj : c ≠ 'j' := fun e => absurd (e ▸ h) (by decide)
  have nk : c ≠ 'k' := fun e => absurd (e ▸ h) (by decide)
  have nl : c ≠ 'l' := fun e => absurd (e ▸ h) (by decide)
  have nm : c ≠ 'm' := fun e => absurd (e ▸ h) (by decide)
  have nn : c ≠ 'n' := fun e => absurd (e ▸ h) (by decide)
  have no' : c ≠ 'o' := fun e => absurd (e ▸ h) (by decide)
  have np : c ≠ 'p' := fun e => absurd (e ▸ h) (by decide)
  have nq : c ≠ 'q' := fun e => absurd (e ▸ h) (by decide)
  have nr : c ≠ 'r' := fun e => absurd (e ▸ h) (by decide)
  have ns : c ≠ 's' := fun e => absurd (e ▸ h) (by decide)
  have nt : c ≠ 't' := fun e => absurd (e ▸ h) (by decide)
  have nu : c ≠ 'u' := fun e => absurd (e ▸ h) (by decide)
  have nv : c ≠ 'v' := fun e => absurd (e ▸ h) (by decide)
  have nw : c ≠ 'w' := fun e => absurd (e ▸ h) (by decide)
  have nx : c ≠ 'x' := fun e => absurd (e ▸ h) (by decide)
  have ny : c ≠ 'y' := fun e => absurd (e ▸ h) (by decide)
  have nz : c ≠ 'z' := fun e => absurd (e ▸ h) (by decide)
  unfold upChar
  simp only [na, nb, nc, nd, ne', nf, ng, nh, ni, nj, nk, nl, nm, nn, no', np, nq, nr,
    ns, nt, nu, nv, nw, nx, ny, nz, if_false]

/-- Uppercasing a character of the class `[A-Z0-9]`+IGNORECASE lands in
`[A-Z0-9]`. -/
theorem upChar_upalnum (c : Char) (h : alnumCI c = true) : isUpAlnum (upChar c) = true := by
  unfold alnumCI at h
  by_cases hL : c.isLower = true
  · rcases lower_enum c hL with e|e|e|e|e|e|e|e|e|e|e|e|e|e|e|e|e|e|e|e|e|e|e|e|e|e <;>
      (subst e; decide)
  · have h0 : c.isLower = false := by
      cases hx : c.isLower
      · rfl
      · exact absurd hx hL
    rw [upChar_id_of_not_lower c h0]
    simp only [h0, Bool.or_false, Bool.false_or] at h
    simpa [isUpAlnum] using h

/-- A character whose ASCII lowercasing is `/` is `/` itself (and similarly
for any non-letter target, by the same if-chain analysis). -/
theorem lowChar_eq_nonletter {c t : Char} (ht : lowChar t = t)
    (htl : ∀ d : Char, d.isLower = true → t ≠ d) (h : lowChar c = lowChar t) : c = t := by
  rw [ht] at h
  by_cases e1 : c = 'A'
  on_goal 2 => by_cases e2 : c = 'B'
  on_goal 3 => by_cases e3 : c = 'C'
  on_goal 4 => by_cases e4 : c = 'D'
  on_goal 5 => by_cases e5 : c = 'E'
  on_goal 6 => by_cases e6 : c = 'F'
  on_goal 7 => by_cases e7 : c = 'G'
  on_goal 8 => by_cases e8 : c = 'H'
  on_goal 9 => by_cases e9 : c = 'I'
  on_goal 10 => by_cases e10 : c = 'J'
  on_goal 11 => by_cases e11 : c = 'K'
  on_goal 12 => by_cases e12 : c = 'L'
  on_goal 13 => by_cases e13 : c = 'M'
  on_goal 14 => by_cases e14 : c = 'N'
  on_goal 15 => by_cases e15 : c = 'O'
  on_goal 16 => by_cases e16 : c = 'P'
  on_goal 17 => by_cases e17 : c = 'Q'
  on_goal 18 => by_cases e18 : c = 'R'
  on_goal 19 => by_cases e19 : c = 'S'
  on_goal 20 => by_cases e20 : c = 'T'
  on_goal 21 => by_cases e21 : c = 'U'
  on_goal 22 => by_cases e22 : c = 'V'
  on_goal 23 => by_cases e23 : c = 'W'
  on_goal 24 => by_cases e24 : c = 'X'
  on_goal 25 => by_cases e25 : c = 'Y'
  on_goal 26 => by_cases e26 : c = 'Z'
  all_goals first
    | (subst c
       exfalso
       revert h
       unfold lowChar
       simp only [if_pos, if_neg, reduceIte]
       intro h
       exact htl _ (by decide) h.symm)
    | (unfold lowChar at h
       simp only [e1, e2, e3, e4, e5, e6, e7, e8, e9, e10, e11, e12, e13, e14, e15, e16,
         e17, e18, e19, e20, e21, e22, e23, e24, e25, e26, if_false] at h
       exact h)

/-! ## Helper lemmas: the regex engine -/

theorem orElse_eq_some {α : Type} (x : Option α) (g : Unit → Option α) (v : α) :
    x.orElse g = some v ↔ x = some v ∨ (x = none ∧ g () = some v) := by
  cases x <;> simp [Option.orElse]

/-- If a match succeeds, the continuation was called successfully on some
remainder. -/
theorem mtch_called {α : Type} :
    ∀ (f : Nat) (r : RE) (s : List Char) (k : List Char → Option α) (v : α),
      mtch f r s k = some v → ∃ s', k s' = some v := by
  intro f
  induction f with
  | zero => intro r s k v h; simp [mtch] at h
  | succ f IH =>
    intro r s k v h
    cases r with
    | eps => exact ⟨s, h⟩
    | eos =>
      cases s with
      | nil => exact ⟨[], h⟩
      | cons c t => simp [mtch] at h
    | cls p =>
      cases s with
      | nil => simp [mtch] at h
      | cons c t =>
        simp only [mtch] at h
        by_cases hp : p c
        · rw [if_pos hp] at h; exact ⟨t, h⟩
        · rw [if_neg hp] at h; simp at h
    | seq a b =>
      simp only [mtch] at h
      obtain ⟨s1, h1⟩ := IH a s _ v h
      exact IH b s1 k v h1
    | alt a b =>
      simp only [mtch] at h
      rcases (orElse_eq_some _ _ _).mp h with h1 | ⟨_, h2⟩
      · exact IH a s k v h1
      · exact IH b s k v h2
    | star a =>
      simp only [mtch] at h
      rcases (orElse_eq_some _ _ _).mp h with h1 | ⟨_, h2⟩
      · obtain ⟨s1, hk⟩ := IH a s _ v h1
        by_cases hl : s1.length < s.length
        · rw [if_pos hl] at hk
          exact IH (.star a) s1 k v hk
        · rw [if_neg hl] at hk; simp at hk
      · exact ⟨s, h2⟩

theorem clsChain_nil : clsChain [] = .eps := rfl

theorem clsChain_cons (p : Char → Bool) (ps : List (Char → Bool)) :
    clsChain (p :: ps) = .seq (.cls p) (clsChain ps) := rfl

/-- A chain of character classes consumes exactly one character per class,
each satisfying its class, before calling the continuation. -/
theorem clsChain_sound {α : Type} :
    ∀ (ps : List (Char → Bool)) (f : Nat) (s : List Char) (k : List Char → Option α) (v : α),
      mtch f (clsChain ps) s k = some v →
      ∃ u t, s = u ++ t ∧ List.Forall₂ (fun p c => p c = true) ps u ∧ k t = some v := by
  intro ps
  induction ps with
  | nil =>
    intro f s k v h
    cases f with
    | zero => simp [mtch] at h
    | succ f => exact ⟨[], s, rfl, .nil, h⟩
  | cons p ps IH =>
    intro f s k v h
    cases f with
    | zero => simp [mtch] at h
    | succ f =>
      rw [clsChain_cons] at h
      simp only [mtch] at h
      cases f with
      | zero => simp [mtch] at h
      | succ f' =>
        cases s with
        | nil => simp [mtch] at h
        | cons c t =>
          simp only [mtch] at h
          by_cases hp : p c
          · rw [if_pos hp] at h
            obtain ⟨u, t2, he, hf, hk⟩ := IH (f' + 1) t k v h
            exact ⟨c :: u, t2, by rw [he, List.cons_append], .cons hp hf, hk⟩
          · rw [if_neg hp] at h; simp at h

/-- Converse: a chain of классes matches any string starting with characters
satisfying the classes in order, and then calls the continuation. -/
theorem clsChain_complete {α : Type} {ps : List (Char → Bool)} {u : List Char}
    (hf : List.Forall₂ (fun p c => p c = true) ps u) :
    ∀ (f : Nat), ps.length < f → ∀ (t : List Char) (k : List Char → Option α),
      mtch f (clsChain ps) (u ++ t) k = k t := by
  induction hf with
  | nil =>
    intro f hlen t k
    cases f with
    | zero => omega
    | succ f => simp only [clsChain_nil, List.nil_append, mtch]
  | @cons p c ps' u' hp _ IH =>
    intro f hlen t k
    cases f with
    | zero => omega
    | succ f =>
      cases f with
      | zero => rw [List.length_cons] at hlen; omega
      | succ f' =>
        rw [clsChain_cons]
        simp only [mtch, List.cons_append]
        rw [if_pos hp]
        exact IH (f' + 1) (by simp at hlen ⊢; omega) t k

theorem forall₂_replicate_iff (n : Nat) (p : Char → Bool) (u : List Char) :
    List.Forall₂ (fun q c => q c = true) (List.replicate n p) u ↔
      (u.length = n ∧ ∀ c ∈ u, p c = true) := by
  induction n generalizing u with
  | zero =>
    cases u <;> simp [List.replicate]
  | succ n IH =>
    cases u with
    | nil => simp [List.replicate]
    | cons c u' =>
      simp only [List.replicate, List.forall₂_cons, IH, List.length_cons, List.mem_cons]
      constructor
      · rintro ⟨h1, h2, h3⟩
        refine ⟨by omega, fun d hd => ?_⟩
        rcases hd with e | hd
        · exact e ▸ h1
        · exact h3 d hd
      · rintro ⟨h1, h2⟩
        exact ⟨h2 c (Or.inl rfl), by omega, fun d hd => h2 d (Or.inr hd)⟩

/-- The captured group of a successful `matchPatAt` whose group is a class
chain satisfies the chain. -/
theorem matchPatAt_grp (p : Pat) (ps : List (Char → Bool)) (hg : p.grp = clsChain ps)
    (s cap rest : List Char) (h : matchPatAt p s = some (cap, rest)) :
    List.Forall₂ (fun q c => q c = true) ps cap := by
  unfold matchPatAt at h
  cases hm : mtch (fuelFor s) p.pre s (fun s1 =>
      mtch (fuelFor s) p.grp s1 (fun s2 =>
        mtch (fuelFor s) p.post s2 (fun s3 => some (s1, s2, s3)))) with
  | none => rw [hm] at h; simp at h
  | some tr =>
    rw [hm] at h
    obtain ⟨s1, s2, s3⟩ := tr
    simp only [Option.some.injEq, Prod.mk.injEq] at h
    obtain ⟨hcap, hrest⟩ := h
    obtain ⟨s1', hk⟩ := mtch_called _ _ _ _ _ hm
    rw [hg] at hk
    obtain ⟨u, t2, he, hf, hk2⟩ := clsChain_sound ps _ s1' _ _ hk
    obtain ⟨s3', hk3⟩ := mtch_called _ _ _ _ _ hk2
    simp only [Option.some.injEq, Prod.mk.injEq] at hk3
    obtain ⟨e1, e2, e3⟩ := hk3
    subst e1 e2 e3
    subst he
    rw [← hcap]
    have hlen : (u ++ t2).length - t2.length = u.length := by simp
    rw [hlen, List.take_left]
    exact hf

/-- The prefix part of a successful `matchPatAt` whose `pre` is a class
chain consumes characters satisfying the chain, taken from the input. -/
theorem matchPatAt_pre (p : Pat) (ps : List (Char → Bool)) (hg : p.pre = clsChain ps)
    (s cap rest : List Char) (h : matchPatAt p s = some (cap, rest)) :
    ∃ u t, s = u ++ t ∧ List.Forall₂ (fun q c => q c = true) ps u := by
  unfold matchPatAt at h
  cases hm : mtch (fuelFor s) p.pre s (fun s1 =>
      mtch (fuelFor s) p.grp s1 (fun s2 =>
        mtch (fuelFor s) p.post s2 (fun s3 => some (s1, s2, s3)))) with
  | none => rw [hm] at h; simp at h
  | some tr =>
    rw [hg] at hm
    obtain ⟨u, t2, he, hf, _⟩ := clsChain_sound ps _ s _ _ hm
    exact ⟨u, t2, he, hf⟩

/-- A successful search means a successful anchored match at some suffix of
the input. -/
theorem searchFullAux_sound (p : Pat) :
    ∀ (pos : Nat) (s : List Char) (st : Nat) (cap : List Char) (en : Nat),
      searchFullAux p pos s = some (st, cap, en) →
      ∃ t rest, t.IsSuffix s ∧ matchPatAt p t = some (cap, rest) := by
  intro pos s
  induction s generalizing pos with
  | nil =>
    intro st cap en h
    unfold searchFullAux at h
    cases hm : matchPatAt p [] with
    | none => rw [hm] at h; simp at h
    | some pr =>
      rw [hm] at h
      simp only [Option.some.injEq, Prod.mk.injEq] at h
      exact ⟨[], pr.2, List.suffix_refl _, by rw [hm, ← h.2.1]⟩
  | cons c t IH =>
    intro st cap en h
    unfold searchFullAux at h
    cases hm : matchPatAt p (c :: t) with
    | none =>
      rw [hm] at h
      obtain ⟨u, rest, hs, hmm⟩ := IH (pos + 1) st cap en h
      exact ⟨u, rest, hs.trans (List.suffix_cons c t), hmm⟩
    | some pr =>
      rw [hm] at h
      simp only [Option.some.injEq, Prod.mk.injEq] at h
      exact ⟨c :: t, pr.2, List.suffix_refl _, by rw [hm, ← h.2.1]⟩

theorem searchCap_sound (p : Pat) (s : List Char) (cap : List Char)
    (h : searchCap p s = some cap) :
    ∃ t rest, t.IsSuffix s ∧ matchPatAt p t = some (cap, rest) := by
  unfold searchCap searchFull at h
  cases hm : searchFullAux p 0 s with
  | none => rw [hm] at h; simp at h
  | some tr =>
    rw [hm] at h
    obtain ⟨st, cap', en⟩ := tr
    simp only [Option.map_some', Option.some.injEq] at h
    subst h
    exact searchFullAux_sound p 0 s st cap' en hm

/-! ## Helper lemmas: scaled decimals, lists, substrings -/

theorem partsVal_lt_one_iff (m k : Nat) : partsVal (m, k) < 1 ↔ m < 10 ^ k := by
  unfold partsVal
  rw [div_lt_one (by positivity)]
  exact_mod_cast Iff.rfl

theorem partsVal_gt_iff (m k A : Nat) : (A : ℚ) < partsVal (m, k) ↔ A * 10 ^ k < m := by
  unfold partsVal
  rw [lt_div_iff₀ (by positivity)]
  exact_mod_cast Iff.rfl

theorem partsVal_le_iff (m k A : Nat) : partsVal (m, k) ≤ (A : ℚ) ↔ m ≤ A * 10 ^ k := by
  unfold partsVal
  rw [div_le_iff₀ (by positivity)]
  exact_mod_cast Iff.rfl

theorem partsVal_lt_hundredth_iff (m k : Nat) :
    partsVal (m, k) < 1 / 100 ↔ 100 * m < 10 ^ k := by
  unfold partsVal
  rw [div_lt_div_iff₀ (by positivity) (by norm_num)]
  have : ((m : ℚ) * 100 < 1 * 10 ^ k) ↔ ((100 * m : ℕ) : ℚ) < ((10 ^ k : ℕ) : ℚ) := by
    push_cast
    constructor <;> intro h <;> linarith
  rw [this]
  exact_mod_cast Iff.rfl

theorem hundredth_le_partsVal_iff (m k : Nat) :
    1 / 100 ≤ partsVal (m, k) ↔ 10 ^ k ≤ 100 * m := by
  rw [← not_lt, partsVal_lt_hundredth_iff, not_lt]

theorem one_le_partsVal_iff (m k : Nat) : 1 ≤ partsVal (m, k) ↔ 10 ^ k ≤ m := by
  rw [← not_lt, partsVal_lt_one_iff, not_lt]

/-- At least two distinct elements of a duplicate-free list satisfy `p` iff
`countP` is at least 2. -/
theorem two_le_countP_iff {α : Type} (l : List α) (hl : l.Nodup) (p : α → Bool) :
    2 ≤ l.countP p ↔ ∃ a ∈ l, ∃ b ∈ l, a ≠ b ∧ p a = true ∧ p b = true := by
  induction l with
  | nil => simp
  | cons x t IH =>
    have hx : x ∉ t := (List.nodup_cons.mp hl).1
    have ht : t.Nodup := (List.nodup_cons.mp hl).2
    rw [List.countP_cons]
    by_cases hpx : p x = true
    · simp only [hpx, if_pos, reduceIte]
      constructor
      · intro h2
        have h1 : 0 < t.countP p := by omega
        obtain ⟨b, hb, hpb⟩ := List.countP_pos_iff.mp h1
        exact ⟨x, List.mem_cons_self x t, b, List.mem_cons_of_mem x hb,
          fun e => hx (e ▸ hb), hpx, hpb⟩
      · rintro ⟨a, ha, b, hb, hab, hpa, hpb⟩
        have hone : 1 ≤ t.countP p := by
          rcases List.mem_cons.mp ha with ea | ha'
          · rcases List.mem_cons.mp hb with eb | hb'
            · exact absurd (ea.trans eb.symm) hab
            · exact List.countP_pos_iff.mpr ⟨b, hb', hpb⟩
          · exact List.countP_pos_iff.mpr ⟨a, ha', hpa⟩
        omega
    · have hpx' : p x = false := by
        cases hv : p x
        · rfl
        · exact absurd hv hpx
      simp only [hpx', Bool.false_eq_true, if_neg, reduceIte, Nat.add_zero]
      rw [IH ht]
      constructor
      · rintro ⟨a, ha, b, hb, hab, hpa, hpb⟩
        exact ⟨a, List.mem_cons_of_mem x ha, b, List.mem_cons_of_mem x hb, hab, hpa, hpb⟩
      · rintro ⟨a, ha, b, hb, hab, hpa, hpb⟩
        rcases List.mem_cons.mp ha with ea | ha'
        · exact absurd (ea ▸ hpa) (by simp [hpx'])
        rcases List.mem_cons.mp hb with eb | hb'
        · exact absurd (eb ▸ hpb) (by simp [hpx'])
        exact ⟨a, ha', b, hb', hab, hpa, hpb⟩

/-- Substring containment is monotone in prefixes of the needle. -/
theorem containsSub_of_prefix {h n n' : List Char} (hc : containsSub h n = true)
    (hp : n' <+: n) : containsSub h n' = true := by
  induction h with
  | nil =>
    unfold containsSub at hc ⊢
    simp only [List.isEmpty_iff] at hc ⊢
    subst hc
    exact List.prefix_nil.mp hp
  | cons c t IH =>
    unfold containsSub at hc ⊢
    rcases Bool.or_eq_true _ _ |>.mp hc with h1 | h2
    · refine Bool.or_eq_true _ _ |>.mpr (Or.inl ?_)
      have := List.isPrefixOf_iff_prefix.mp h1
      exact List.isPrefixOf_iff_prefix.mpr (hp.trans this)
    · exact Bool.or_eq_true _ _ |>.mpr (Or.inr (IH h2))

/-! ## Claim C4 — price validation -/

/-- The exact numeric value obtained from a candidate after cleaning and
comma removal (the value Python's `float` sees). -/
def cleanedNumericValue (s : String) : Option ℚ :=
  parseDec ((cleanPriceChars s.data).filter (fun c => c ≠ ','))

/-- C4: structured-mode validation rejects `0`, rejects `0.5`, and rejects
every candidate whose cleaned numeric value lies outside [1, 1000000];
fallback-mode validation accepts exactly the candidates with at least 2
cleaned characters whose value lies in [0.01, 10000000]; cleaning keeps
exactly the digits, dots and commas of the candidate. -/
theorem C4_price_validation :
    (is_valid_price ("0") = false ∧ is_valid_price ("0.5") = false) ∧
    (∀ (s : String) (q : ℚ), cleanedNumericValue s = some q →
      (q < 1 ∨ q > 1000000) → is_valid_price s = false) ∧
    (∀ s : String, is_valid_fallback_price s = true ↔
      (2 ≤ (cleanPriceChars s.data).length ∧
        ∃ q : ℚ, cleanedNumericValue s = some q ∧ 1 / 100 ≤ q ∧ q ≤ 10000000)) ∧
    (∀ (s : String) (c : Char), c ∈ cleanPriceChars s.data ↔
      (c ∈ s.data ∧ (c.isDigit || c = '.' || c = ',') = true)) := by
  refine ⟨⟨by decide, by decide⟩, ?_, ?_, ?_⟩
  · intro s q hq hr
    unfold is_valid_price
    by_cases h0 : s.data.isEmpty
    · rw [if_pos h0]
    rw [if_neg h0]
    simp only
    by_cases h2 : (cleanPriceChars s.data).length < 2
    · rw [if_pos h2]
    rw [if_neg h2]
    by_cases h3 : (cleanPriceChars s.data).take 1 = ['0'] ∧ (cleanPriceChars s.data).length = 1
    · rw [if_pos h3]
    rw [if_neg h3]
    unfold cleanedNumericValue parseDec at hq
    cases hp : parseDecParts ((cleanPriceChars s.data).filter (fun c => c ≠ ',')) with
    | none => rw [hp] at hq
    | some pr =>
      rw [hp] at hq
      simp only [Option.map_some', Option.some.injEq] at hq
      obtain ⟨m, k⟩ := pr
      show (if m < 10 ^ k ∨ m > 1000000 * 10 ^ k then false else true) = false
      have hcond : m < 10 ^ k ∨ m > 1000000 * 10 ^ k := by
        rcases hr with hlt | hgt
        · exact Or.inl ((partsVal_lt_one_iff m k).mp (hq ▸ hlt))
        · refine Or.inr ((partsVal_gt_iff m k 1000000).mp ?_)
          rw [hq]
          exact_mod_cast hgt
      rw [if_pos hcond]
  · intro s
    unfold is_valid_fallback_price
    constructor
    · intro h
      by_cases h0 : s.data.isEmpty
      · rw [if_pos h0] at h; exact absurd h (by decide)
      rw [if_neg h0] at h
      simp only at h
      by_cases h2 : (cleanPriceChars s.data).length < 2
      · rw [if_pos h2] at h; exact absurd h (by decide)
      rw [if_neg h2] at h
      refine ⟨by omega, ?_⟩
      cases hp : parseDecParts ((cleanPriceChars s.data).filter (fun c => c ≠ ',')) with
      | none => rw [hp] at h; exact absurd h (by decide)
      | some pr =>
        rw [hp] at h
        obtain ⟨m, k⟩ := pr
        have h' : (if 100 * m < 10 ^ k ∨ m > 10000000 * 10 ^ k then false else true) = true := h
        clear h
        by_cases hcond : 100 * m < 10 ^ k ∨ m > 10000000 * 10 ^ k
        · rw [if_pos hcond] at h'; exact absurd h' (by decide)
        rw [if_neg hcond] at h'
        push_neg at hcond
        refine ⟨partsVal (m, k), ?_, ?_, ?_⟩
        · unfold cleanedNumericValue parseDec
          rw [hp]
          rfl
        · exact (hundredth_le_partsVal_iff m k).mpr (by omega)
        · have := (partsVal_le_iff m k 10000000).mpr (by omega)
          exact_mod_cast this
    · rintro ⟨h2, q, hq, hlo, hhi⟩
      have h0 : s.data.isEmpty = false := by
        cases hv : s.data with
        | nil =>
          exfalso
          rw [hv] at h2
          simp [cleanPriceChars] at h2
        | cons a b => simp [hv]
      rw [if_neg (by simp [h0])]
      simp only
      rw [if_neg (by omega)]
      unfold cleanedNumericValue parseDec at hq
      cases hp : parseDecParts ((cleanPriceChars s.data).filter (fun c => c ≠ ',')) with
      | none => rw [hp] at hq; exact absurd hq (by simp)
      | some pr =>
        rw [hp] at hq
        simp only [Option.map_some', Option.some.injEq] at hq
        obtain ⟨m, k⟩ := pr
        show (if 100 * m < 10 ^ k ∨ m > 10000000 * 10 ^ k then false else true) = true
        have hlo' : 1 / 100 ≤ partsVal (m, k) := by rw [hq]; exact hlo
        have hhi' : partsVal (m, k) ≤ ((10000000 : ℕ) : ℚ) := by
          rw [hq]
          exact_mod_cast hhi
        have hle1 : 10 ^ k ≤ 100 * m := (hundredth_le_partsVal_iff m k).mp hlo'
        have hle2 : m ≤ 10000000 * 10 ^ k := (partsVal_le_iff m k 10000000).mp hhi'
        rw [if_neg (by omega)]
  · intro s c
    simp [cleanPriceChars, List.mem_filter]

/-- Witness for C4: the range-rejection clause at the out-of-range candidate
`3000000`, and the fallback-acceptance clause at `12.34`. -/
theorem C4_price_validation_witness :
    is_valid_price ("3000000") = false ∧ is_valid_fallback_price ("12.34") = true := by
  constructor
  · refine C4_price_validation.2.1 ("3000000") (partsVal (3000000, 0)) (by rfl) (Or.inr ?_)
    have h := (partsVal_gt_iff 3000000 0 1000000).mpr (by norm_num)
    exact_mod_cast h
  · refine (C4_price_validation.2.2.1 ("12.34")).mpr
      ⟨by decide, partsVal (1234, 2), by rfl, ?_, ?_⟩
    · exact (hundredth_le_partsVal_iff 1234 2).mpr (by norm_num)
    · have h := (partsVal_le_iff 1234 2 10000000).mpr (by norm_num)
      exact_mod_cast h

/-! ## Claim C5 — content validity classifier -/

/-- C5: any bot-challenge phrase (case-insensitive substring) classifies the
page as not-a-product regardless of markers; without challenge phrases, the
page is real iff at least two distinct product markers occur (one marker is
not enough, two are); concretely, one marker yields `false`, two yield
`true`. -/
theorem C5_content_classifier :
    (∀ html : String,
        (∃ e ∈ error_indicators, containsSub (lowerL html.data) (lowerL e.data) = true) →
        has_real_product_data html = false) ∧
    (∀ html : String,
        (∀ e ∈ error_indicators, containsSub (lowerL html.data) (lowerL e.data) = false) →
        (has_real_product_data html = true ↔
          ∃ i ∈ product_indicators, ∃ j ∈ product_indicators, i ≠ j ∧
            containsSub html.data i.data = true ∧ containsSub html.data j.data = true)) ∧
    has_real_product_data ("<div>productTitle</div>") = false ∧
    has_real_product_data ("<div>productTitle feature-bullets</div>") = true := by
  refine ⟨?_, ?_, by decide, by decide⟩
  · intro html ⟨e, he, hce⟩
    unfold has_real_product_data
    rw [if_pos (List.any_eq_true.mpr ⟨e, he, hce⟩)]
  · intro html hno
    unfold has_real_product_data
    have hany : error_indicators.any
        (fun e => containsSub (lowerL html.data) (lowerL e.data)) = false :=
      List.any_eq_false.mpr (fun x hx => by rw [hno x hx]; exact Bool.false_ne_true)
    rw [if_neg (by rw [hany]; exact Bool.false_ne_true)]
    have hnodup : product_indicators.Nodup := by decide
    by_cases hc : ∃ a ∈ product_indicators, ∃ b ∈ product_indicators,
        a ≠ b ∧ containsSub html.data a.data = true ∧ containsSub html.data b.data = true
    · rw [if_pos ((two_le_countP_iff product_indicators hnodup
        (fun i => containsSub html.data i.data)).mpr hc)]
      exact iff_of_true rfl hc
    · rw [if_neg (fun hcon => hc ((two_le_countP_iff product_indicators hnodup
        (fun i => containsSub html.data i.data)).mp hcon))]
      exact iff_of_false Bool.false_ne_true hc

/-- Witness for C5: the challenge-phrase clause at HTML containing
`Robot Check` together with two markers, and the marker-counting clause at
marker-free HTML. -/
theorem C5_content_classifier_witness :
    has_real_product_data ("Robot Check productTitle a-price") = false ∧
    has_real_product_data ("plain page") = false := by
  constructor
  · exact C5_content_classifier.1 ("Robot Check productTitle a-price")
      ⟨("Robot Check"), by decide, by decide⟩
  · have h2 := C5_content_classifier.2.1 ("plain page") (by decide)
    have hrhs : ¬ ∃ i ∈ product_indicators, ∃ j ∈ product_indicators, i ≠ j ∧
        containsSub ("plain page").data i.data = true ∧
        containsSub ("plain page").data j.data = true := by decide
    cases hb : has_real_product_data ("plain page") with
    | false => rfl
    | true => exact absurd (h2.mp hb) hrhs

/-! ## Claim C3 — marketplace resolution and currency hint (corrected)

The claim asserts `amazon.com.au → AUD`, but every string containing
`amazon.com.au` also contains `amazon.com`, which the expected-currency
chain tests second — so the hint is `USD` and the `AUD` branch of the chain
is unreachable from the domain hint.  Unmatched input yields an *empty*
hint (not `USD`), while `get_amazon_domain` defaults to `amazon.com`. -/

/-- C3 counterexample: an `amazon.com.au` URL is given the expected-currency
hint `USD`, not `AUD` as the claim states (domain resolution still returns
`amazon.com.au`). -/
theorem C3_marketplace_counterexample :
    expectedCurrencyFor ("https://www.amazon.com.au/dp/B08N5WRWNW") = ("USD") ∧
    (("USD") : String) ≠ ("AUD") ∧
    get_amazon_domain ("https://www.amazon.com.au/dp/B08N5WRWNW") = ("amazon.com.au") := by
  decide

/-- C3 (amended): both resolutions are substring tests in a fixed order;
`amazon.in` always yields INR/amazon.in; `amazon.co.uk` yields GBP when no
earlier fragment matches, and domain amazon.co.uk; `amazon.com.au` yields
hint USD (shadowed by the bare `amazon.com`) though the domain resolves to
amazon.com.au; fragment-free input yields an empty hint and the US domain. -/
theorem C3_marketplace_amended :
    (∀ u : String, containsStr u ("amazon.in") = true →
      expectedCurrencyFor u = ("INR") ∧ get_amazon_domain u = ("amazon.in")) ∧
    (∀ u : String, containsStr u ("amazon.in") = false →
      containsStr u ("amazon.com") = false → containsStr u ("amazon.co.uk") = true →
      expectedCurrencyFor u = ("GBP")) ∧
    (∀ u : String, containsStr u ("amazon.in") = false →
      containsStr u ("amazon.co.uk") = true → get_amazon_domain u = ("amazon.co.uk")) ∧
    (∀ u : String, containsStr u ("amazon.in") = false →
      containsStr u ("amazon.com.au") = true → expectedCurrencyFor u = ("USD")) ∧
    (∀ u : String, containsStr u ("amazon.in") = false →
      containsStr u ("amazon.co.uk") = false → containsStr u ("amazon.ca") = false →
      containsStr u ("amazon.de") = false → containsStr u ("amazon.fr") = false →
      containsStr u ("amazon.it") = false → containsStr u ("amazon.es") = false →
      containsStr u ("amazon.com.au") = true → get_amazon_domain u = ("amazon.com.au")) ∧
    (∀ u : String, containsStr u ("amazon.in") = false →
      containsStr u ("amazon.com") = false → containsStr u ("amazon.co.uk") = false →
      containsStr u ("amazon.de") = false → containsStr u ("amazon.ca") = false →
      containsStr u ("amazon.com.au") = false → expectedCurrencyFor u = ("")) ∧
    (∀ u : String, containsStr u ("amazon.in") = false →
      containsStr u ("amazon.co.uk") = false → containsStr u ("amazon.ca") = false →
      containsStr u ("amazon.de") = false → containsStr u ("amazon.fr") = false →
      containsStr u ("amazon.it") = false → containsStr u ("amazon.es") = false →
      containsStr u ("amazon.com.au") = false → containsStr u ("amazon.com.br") = false →
      containsStr u ("amazon.co.jp") = false → get_amazon_domain u = ("amazon.com")) := by
  refine ⟨?_, ?_, ?_, ?_, ?_, ?_, ?_⟩
  · intro u h1
    constructor
    · unfold expectedCurrencyFor
      rw [h1]
      simp
    · unfold get_amazon_domain
      rw [h1]
      simp
  · intro u h1 h2 h3
    unfold expectedCurrencyFor
    rw [h1, h2, h3]
    simp
  · intro u h1 h2
    unfold get_amazon_domain
    rw [h1, h2]
    simp
  · intro u h1 h2
    have hcom : containsStr u ("amazon.com") = true := by
      refine containsSub_of_prefix h2 ?_
      exact List.isPrefixOf_iff_prefix.mp (by decide)
    unfold expectedCurrencyFor
    rw [h1, hcom]
    simp
  · intro u h1 h2 h3 h4 h5 h6 h7 h8
    unfold get_amazon_domain
    rw [h1, h2, h3, h4, h5, h6, h7, h8]
    simp
  · intro u h1 h2 h3 h4 h5 h6
    unfold expectedCurrencyFor
    rw [h1, h2, h3, h4, h5, h6]
    simp
  · intro u h1 h2 h3 h4 h5 h6 h7 h8 h9 h10
    unfold get_amazon_domain
    rw [h1, h2, h3, h4, h5, h6, h7, h8, h9, h10]
    simp

/-- Witness for C3 (amended) at concrete URLs of each kind. -/
theorem C3_marketplace_amended_witness :
    expectedCurrencyFor ("https://www.amazon.in/dp/B08N5WRWNW") = ("INR") ∧
    expectedCurrencyFor ("https://www.amazon.co.uk/dp/B08N5WRWNW") = ("GBP") ∧
    expectedCurrencyFor ("B08N5WRWNW") = ("") ∧
    get_amazon_domain ("B08N5WRWNW") = ("amazon.com") :=
  ⟨(C3_marketplace_amended.1 ("https://www.amazon.in/dp/B08N5WRWNW") (by decide)).1,
   C3_marketplace_amended.2.1 ("https://www.amazon.co.uk/dp/B08N5WRWNW")
     (by decide) (by decide) (by decide),
   C3_marketplace_amended.2.2.2.2.2.1 ("B08N5WRWNW")
     (by decide) (by decide) (by decide) (by decide) (by decide) (by decide),
   C3_marketplace_amended.2.2.2.2.2.2 ("B08N5WRWNW")
     (by decide) (by decide) (by decide) (by decide) (by decide) (by decide) (by decide)
     (by decide) (by decide) (by decide)⟩

/-! ## Claim C1 — fallback orchestrator -/

/-- Whether a strategy outcome counts as success for the orchestrator loop:
a parsed record with a truthy `product_name`. -/
def methodSucc (fetch : String → Option ProductD) (n : String) : Bool :=
  match fetch n with
  | some r => decide (r.product_name ≠ (""))
  | none => false

theorem tryMethods_cons_some (fetch : String → Option ProductD) (n : String)
    (t : List String) (r : ProductD) (hf : fetch n = some r) :
    tryMethods fetch (n :: t) =
      if r.product_name ≠ ("") then some (r, n) else tryMethods fetch t := by
  conv_lhs => unfold tryMethods
  rw [hf]

theorem tryMethods_cons_none (fetch : String → Option ProductD) (n : String)
    (t : List String) (hf : fetch n = none) :
    tryMethods fetch (n :: t) = tryMethods fetch t := by
  conv_lhs => unfold tryMethods
  rw [hf]

theorem tryMethods_none_iff (fetch : String → Option ProductD) :
    ∀ ns : List String, tryMethods fetch ns = none ↔ ∀ n ∈ ns, methodSucc fetch n = false := by
  intro ns
  induction ns with
  | nil => simp [tryMethods]
  | cons n t IH =>
    cases hf : fetch n with
    | none =>
      rw [tryMethods_cons_none fetch n t hf]
      simp only [List.mem_cons]
      constructor
      · intro h m hm
        rcases hm with e | hm
        · subst e; simp [methodSucc, hf]
        · exact (IH.mp h) m hm
      · intro h
        exact IH.mpr (fun m hm => h m (Or.inr hm))
    | some r =>
      rw [tryMethods_cons_some fetch n t r hf]
      by_cases hn : r.product_name ≠ ("")
      · rw [if_pos hn]
        simp only [List.mem_cons]
        constructor
        · intro h; exact absurd h (by simp)
        · intro h
          have := h n (Or.inl rfl)
          rw [methodSucc, hf] at this
          simp [hn] at this
      · rw [if_neg hn]
        simp only [List.mem_cons]
        constructor
        · intro h m hm
          rcases hm with e | hm
          · subst e; simp only [methodSucc, hf]; simp [hn]
          · exact (IH.mp h) m hm
        · intro h
          exact IH.mpr (fun m hm => h m (Or.inr hm))

theorem tryMethods_first_success (fetch : String → Option ProductD) :
    ∀ (pre : List String) (n : String) (post : List String),
      (∀ m ∈ pre, methodSucc fetch m = false) → methodSucc fetch n = true →
      ∃ r, fetch n = some r ∧ r.product_name ≠ ("") ∧
        tryMethods fetch (pre ++ n :: post) = some (r, n) := by
  intro pre
  induction pre with
  | nil =>
    intro n post _ hn
    unfold methodSucc at hn
    cases hf : fetch n with
    | none => rw [hf] at hn; simp at hn
    | some r =>
      rw [hf] at hn
      simp only [decide_eq_true_eq] at hn
      refine ⟨r, rfl, hn, ?_⟩
      simp only [List.nil_append]
      rw [tryMethods_cons_some fetch n post r hf, if_pos hn]
  | cons m t IH =>
    intro n post hpre hn
    have hm : methodSucc fetch m = false := hpre m (List.mem_cons_self m t)
    obtain ⟨r, hr, hname, htail⟩ := IH n post (fun x hx => hpre x (List.mem_cons_of_mem m hx)) hn
    refine ⟨r, hr, hname, ?_⟩
    simp only [List.cons_append]
    unfold methodSucc at hm
    cases hf : fetch m with
    | none => rw [tryMethods_cons_none fetch m _ hf]; exact htail
    | some rm =>
      rw [hf] at hm
      simp only [decide_eq_false_iff_not] at hm
      rw [tryMethods_cons_some fetch m _ rm hf, if_neg hm]
      exact htail

/-- C1: with an extractable identifier, `get_product_info` tries the four
strategies strictly in the fixed order, returns the first result with a
non-empty `product_name` tagged with its strategy name and the identifier,
and returns the error record (whose `tried_methods` is the four names in
priority order, duplicate-free) exactly when every strategy failed or
produced an empty name. -/
theorem C1_orchestrator (input : String) (fetch : String → Option ProductD) (asin : String)
    (hasin : extract_asin input = some asin) :
    (methodNames = [("rainforest_api"), ("scraperapi"), ("rapidapi"), ("direct_amazon")] ∧
      methodNames.Nodup) ∧
    (get_product_info input fetch = .allFailed asin methodNames ↔
      ∀ n ∈ methodNames, methodSucc fetch n = false) ∧
    (∀ (pre : List String) (n : String) (post : List String),
      methodNames = pre ++ n :: post →
      (∀ m ∈ pre, methodSucc fetch m = false) → methodSucc fetch n = true →
      ∃ r, fetch n = some r ∧ r.product_name ≠ ("") ∧
        get_product_info input fetch = .ok r n asin) := by
  refine ⟨⟨rfl, by decide⟩, ?_, ?_⟩
  · unfold get_product_info
    rw [hasin]
    cases ht : tryMethods fetch methodNames with
    | none =>
      constructor
      · intro _
        exact (tryMethods_none_iff fetch methodNames).mp ht
      · intro _
        rfl
    | some pr =>
      obtain ⟨r, n⟩ := pr
      constructor
      · intro h
        exact absurd h (fun hc => ResolveResult.noConfusion hc)
      · intro hall
        rw [(tryMethods_none_iff fetch methodNames).mpr hall] at ht
        exact absurd ht (fun hc => Option.noConfusion hc)
  · intro pre n post he hpre hn
    obtain ⟨r, hr, hname, htry⟩ := tryMethods_first_success fetch pre n post hpre hn
    refine ⟨r, hr, hname, ?_⟩
    unfold get_product_info
    rw [hasin, he, htry]

/-- A concrete strategy-outcome assignment for the C1 witness: the first
strategy fails, the second succeeds. -/
def fetchW : String → Option ProductD := fun n =>
  if n = ("scraperapi") then some ⟨("Echo Dot"), emptyPrice, (""), [], []⟩ else none

/-- Witness for C1: with `rainforest_api` failing and `scraperapi`
succeeding, the orchestrator returns the `scraperapi` record. -/
theorem C1_orchestrator_witness :
    get_product_info ("B08N5WRWNW") fetchW =
      .ok ⟨("Echo Dot"), emptyPrice, (""), [], []⟩ ("scraperapi") ("B08N5WRWNW") := by
  obtain ⟨r, hr, hname, hres⟩ :=
    (C1_orchestrator ("B08N5WRWNW") fetchW ("B08N5WRWNW") (by decide)).2.2
      [("rainforest_api")] ("scraperapi") [("rapidapi"), ("direct_amazon")]
      (by decide) (by decide) (by decide)
  have h2 : fetchW ("scraperapi") = some ⟨("Echo Dot"), emptyPrice, (""), [], []⟩ := rfl
  rw [h2] at hr
  have h3 : r = ⟨("Echo Dot"), emptyPrice, (""), [], []⟩ := by
    injection hr with h4
    exact h4.symm
  rw [h3] at hres
  exact hres

/-! ## Claim C7 — PriceRecord invariant -/

/-- The display symbol belonging to each supported currency code. -/
def symbolFor (c : String) : String :=
  if c = ("INR") then ("₹") else if c = ("USD") then ("$") else if c = ("GBP") then ("£")
  else if c = ("EUR") then ("€") else if c = ("CAD") then ("C$")
  else if c = ("AUD") then ("A$") else ("")

/-- The claimed invariant: original and discounted coincide; a non-empty
currency comes with non-empty, symbol-prefixed price strings; an empty
currency means the all-empty record (the type is total — no null state). -/
def priceInv (r : PriceRec) : Prop :=
  r.original = r.discounted ∧
  (r.currency ≠ ("") → r.original ≠ ("") ∧ (symbolFor r.currency).data <+: r.original.data) ∧
  (r.currency = ("") → r = emptyPrice)

/-- A pattern-table row is consistent when its symbol is the one belonging
to its currency code. -/
def rowConsistent (row : PatRow) : Prop :=
  row.code ≠ ("") → (row.symbol = symbolFor row.code ∧ row.symbol ≠ (""))

/-- A currency-specific row: non-empty code with the matching symbol. -/
def specificRowOK (row : PatRow) : Prop :=
  row.code ≠ ("") ∧ row.symbol = symbolFor row.code ∧ row.symbol ≠ ("")

theorem string_append_data (a b : String) : (a ++ b).data = a.data ++ b.data := rfl

theorem string_ne_empty_of_data {s : String} (h : s.data ≠ []) : s ≠ ("") :=
  fun e => h (by rw [e])

theorem priceInv_empty : priceInv emptyPrice := by
  refine ⟨rfl, fun hc => absurd rfl hc, fun _ => rfl⟩

theorem priceInv_mk (sym v code : String) (h1 : sym = symbolFor code) (h2 : sym ≠ (""))
    (h3 : code ≠ ("")) : priceInv ⟨sym ++ v, sym ++ v, code⟩ := by
  refine ⟨rfl, fun _ => ⟨?_, ?_⟩, fun hc => absurd hc h3⟩
  · refine string_ne_empty_of_data ?_
    rw [string_append_data]
    intro hcon
    rcases List.append_eq_nil.mp hcon with ⟨ha, _⟩
    exact h2 (by cases sym; cases ha; rfl)
  · simp only [string_append_data, ← h1]
    exact List.prefix_append sym.data v.data

theorem currencyAssign_inv (e v : String) : priceInv (currencyAssign e v) := by
  unfold currencyAssign
  by_cases h1 : e = ("INR")
  · rw [if_pos h1]; exact priceInv_mk _ v _ (by decide) (by decide) (by decide)
  rw [if_neg h1]
  by_cases h2 : e = ("USD")
  · rw [if_pos h2]; exact priceInv_mk _ v _ (by decide) (by decide) (by decide)
  rw [if_neg h2]
  by_cases h3 : e = ("GBP")
  · rw [if_pos h3]; exact priceInv_mk _ v _ (by decide) (by decide) (by decide)
  rw [if_neg h3]
  by_cases h4 : e = ("EUR")
  · rw [if_pos h4]; exact priceInv_mk _ v _ (by decide) (by decide) (by decide)
  rw [if_neg h4]
  by_cases h5 : e = ("CAD")
  · rw [if_pos h5]; exact priceInv_mk _ v _ (by decide) (by decide) (by decide)
  rw [if_neg h5]
  by_cases h6 : e = ("AUD")
  · rw [if_pos h6]; exact priceInv_mk _ v _ (by decide) (by decide) (by decide)
  rw [if_neg h6]
  exact priceInv_empty

theorem contextAssign_inv (ctx : List Char) (v : String) : priceInv (contextAssign ctx v) := by
  unfold contextAssign
  by_cases h1 : (containsSub ctx ("₹").data || containsSub ctx ("INR").data) = true
  · rw [if_pos h1]; exact priceInv_mk _ v _ (by decide) (by decide) (by decide)
  rw [if_neg h1]
  by_cases h2 : (containsSub ctx ("$").data || containsSub ctx ("USD").data) = true
  · rw [if_pos h2]; exact priceInv_mk _ v _ (by decide) (by decide) (by decide)
  rw [if_neg h2]
  by_cases h3 : (containsSub ctx ("£").data || containsSub ctx ("GBP").data) = true
  · rw [if_pos h3]; exact priceInv_mk _ v _ (by decide) (by decide) (by decide)
  rw [if_neg h3]
  by_cases h4 : (containsSub ctx ("€").data || containsSub ctx ("EUR").data) = true
  · rw [if_pos h4]; exact priceInv_mk _ v _ (by decide) (by decide) (by decide)
  rw [if_neg h4]
  exact priceInv_mk _ v _ (by decide) (by decide) (by decide)

theorem firstPassLoop_inv (html : List Char) :
    ∀ (rows : List PatRow) (r : PriceRec), (∀ row ∈ rows, specificRowOK row) →
      firstPassLoop html rows = some r → priceInv r := by
  intro rows
  induction rows with
  | nil => intro r _ h; simp [firstPassLoop] at h
  | cons row rs IH =>
    intro r hcons h
    unfold firstPassLoop at h
    cases hs : searchCap row.pat html with
    | none =>
      rw [hs] at h
      exact IH r (fun x hx => hcons x (List.mem_cons_of_mem row hx)) h
    | some cap =>
      rw [hs] at h
      have h' : (if is_valid_price (strOfL cap) = true then
          some (⟨row.symbol ++ strOfL cap, row.symbol ++ strOfL cap, row.code⟩ : PriceRec)
        else firstPassLoop html rs) = some r := h
      by_cases hv : is_valid_price (strOfL cap) = true
      · rw [if_pos hv] at h'
        injection h' with h'
        subst h'
        obtain ⟨hcode, hs1, hs2⟩ := hcons row (List.mem_cons_self row rs)
        exact priceInv_mk row.symbol (strOfL cap) row.code hs1 hs2 hcode
      · rw [if_neg hv] at h'
        exact IH r (fun x hx => hcons x (List.mem_cons_of_mem row hx)) h'

theorem secondPassLoop_inv (html : List Char) (expected : String) :
    ∀ rows : List PatRow, priceInv (secondPassLoop html expected rows) := by
  intro rows
  induction rows with
  | nil => exact priceInv_empty
  | cons row rs IH =>
    unfold secondPassLoop
    cases hs : searchFull row.pat html with
    | none => exact IH
    | some tr =>
      obtain ⟨st, cap, en⟩ := tr
      show priceInv (if is_valid_price (strOfL cap) = true then
          (if expected ≠ ("") then currencyAssign expected (strOfL cap)
           else contextAssign ((html.drop (st - 100)).take (min html.length (en + 100) - (st - 100)))
             (strOfL cap))
        else secondPassLoop html expected rs)
      by_cases hv : is_valid_price (strOfL cap) = true
      · rw [if_pos hv]
        by_cases he : expected ≠ ("")
        · rw [if_pos he]
          exact currencyAssign_inv expected (strOfL cap)
        · rw [if_neg he]
          exact contextAssign_inv _ (strOfL cap)
      · rw [if_neg hv]
        exact IH

theorem fallbackInner_inv (row : PatRow) (expected : String) (hrow : rowConsistent row) :
    ∀ (ms : List (List Char)) (r : PriceRec),
      fallbackInner row expected ms = some r → priceInv r := by
  intro ms
  induction ms with
  | nil => intro r h; simp [fallbackInner] at h
  | cons m t IH =>
    intro r h
    unfold fallbackInner at h
    by_cases hv : is_valid_fallback_price (strOfL m) = true
    · rw [if_pos hv] at h
      by_cases hc : row.code ≠ ("")
      · rw [if_pos hc] at h
        injection h with h
        subst h
        obtain ⟨hs1, hs2⟩ := hrow hc
        exact priceInv_mk row.symbol (strOfL m) row.code hs1 hs2
          (by simpa using hc)
      · rw [if_neg hc] at h
        by_cases he : expected ≠ ("")
        · rw [if_pos he] at h
          injection h with h
          subst h
          exact currencyAssign_inv expected (strOfL m)
        · rw [if_neg he] at h
          exact IH r h
    · rw [if_neg hv] at h
      exact IH r h

theorem fallbackOuter_inv (html : List Char) (expected : String) :
    ∀ (rows : List PatRow) (r : PriceRec), (∀ row ∈ rows, rowConsistent row) →
      fallbackOuter html expected rows = some r → priceInv r := by
  intro rows
  induction rows with
  | nil => intro r _ h; simp [fallbackOuter] at h
  | cons row rs IH =>
    intro r hcons h
    unfold fallbackOuter at h
    cases hi : fallbackInner row expected (findallPat row.pat html) with
    | some r' =>
      rw [hi] at h
      injection h with h
      subst h
      exact fallbackInner_inv row expected (hcons row (List.mem_cons_self row rs)) _ r' hi
    | none =>
      rw [hi] at h
      exact IH r (fun x hx => hcons x (List.mem_cons_of_mem row hx)) h

theorem fallbackPatterns_consistent : ∀ row ∈ fallbackPatterns, rowConsistent row := by
  intro row h
  unfold fallbackPatterns at h
  simp only [List.mem_cons, List.not_mem_nil, or_false] at h
  rcases h with e|e|e|e|e|e|e|e|e|e|e|e|e|e <;> (subst e; intro hc)
  all_goals first
    | exact ⟨by decide, by decide⟩
    | exact absurd rfl hc

theorem extract_fallback_price_inv (html expected : String) :
    priceInv (extract_fallback_price html expected) := by
  unfold extract_fallback_price
  cases hf : fallbackOuter html.data expected fallbackPatterns with
  | some r =>
    exact fallbackOuter_inv html.data expected fallbackPatterns r fallbackPatterns_consistent hf
  | none => exact priceInv_empty

theorem pricePatterns_specific_ok (e : String) :
    ∀ row ∈ (pricePatterns e).dropLast.dropLast, specificRowOK row := by
  intro row h
  unfold pricePatterns at h
  by_cases he : e = ("INR")
  · rw [if_pos he] at h
    simp only [List.dropLast, List.mem_cons, List.not_mem_nil, or_false] at h
    rcases h with e'|e'|e'|e'|e'|e'|e'|e'|e'|e'|e'|e'|e' <;> (subst e'; exact ⟨by decide, by decide, by decide⟩)
  · rw [if_neg he] at h
    simp only [List.dropLast, List.mem_cons, List.not_mem_nil, or_false] at h
    rcases h with e'|e'|e'|e'|e'|e'|e'|e'|e'|e'|e'|e'|e' <;> (subst e'; exact ⟨by decide, by decide, by decide⟩)

/-- C7: every record produced by `_extract_price_with_currency` and by
`_extract_fallback_price` has `original = discounted`; a non-empty currency
forces non-empty, symbol-prefixed price strings; and an empty currency
forces the all-empty record (the model is total — no null/missing field
state exists). -/
theorem C7_price_record_invariant :
    (∀ html url : String, priceInv (extract_price_with_currency html url)) ∧
    (∀ html expected : String, priceInv (extract_fallback_price html expected)) := by
  refine ⟨?_, extract_fallback_price_inv⟩
  intro html url
  unfold extract_price_with_currency
  by_cases hreal : has_real_product_data html = false
  · rw [if_pos hreal]
    exact extract_fallback_price_inv html (expectedCurrencyFor url)
  · rw [if_neg hreal]
    cases hfp : firstPassLoop html.data
        ((pricePatterns (expectedCurrencyFor url)).dropLast.dropLast) with
    | some r =>
      exact firstPassLoop_inv html.data _ r
        (pricePatterns_specific_ok (expectedCurrencyFor url)) hfp
    | none =>
      exact secondPassLoop_inv html.data (expectedCurrencyFor url) _

/-- Witness for C7: a GBP extraction is pound-prefixed with equal fields,
and the no-match fallback returns the all-empty record. -/
theorem C7_price_record_invariant_witness :
    (("£").data <+:
      (extract_price_with_currency ("a-price a-offscreen £50") ("")).original.data) ∧
    (extract_price_with_currency ("a-price a-offscreen £50") ("")).original =
      (extract_price_with_currency ("a-price a-offscreen £50") ("")).discounted ∧
    extract_fallback_price ("no numbers here") ("") = emptyPrice := by
  refine ⟨?_, (C7_price_record_invariant.1 ("a-price a-offscreen £50") ("")).1, ?_⟩
  · have h := (C7_price_record_invariant.1 ("a-price a-offscreen £50") ("")).2.1 (by decide)
    have hc : (extract_price_with_currency ("a-price a-offscreen £50") ("")).currency =
        ("GBP") := by decide
    have h2 := h.2
    rw [hc] at h2
    exact h2
  · exact (C7_price_record_invariant.2 ("no numbers here") ("")).2.2 (by decide)

/-! ## Claim C10 — bare numbers need a currency hint in fallback mode -/

theorem fallbackInner_none_of_all_invalid (row : PatRow) (e : String) :
    ∀ ms : List (List Char), (∀ m ∈ ms, is_valid_fallback_price (strOfL m) = false) →
      fallbackInner row e ms = none := by
  intro ms
  induction ms with
  | nil => intro _; rfl
  | cons m t IH =>
    intro hall
    unfold fallbackInner
    rw [if_neg (by rw [hall m (List.mem_cons_self m t)]; exact Bool.false_ne_true)]
    exact IH (fun x hx => hall x (List.mem_cons_of_mem m hx))

/-- A row with no currency code, scanned with no domain hint, never
returns — valid matches are skipped (the source's inner loop only returns
under `currency_code` or `expected_currency`). -/
theorem fallbackInner_none_bare (row : PatRow) (hc : row.code = ("")) :
    ∀ ms : List (List Char), fallbackInner row ("") ms = none := by
  intro ms
  induction ms with
  | nil => rfl
  | cons m t IH =>
    unfold fallbackInner
    by_cases hv : is_valid_fallback_price (strOfL m) = true
    · rw [if_pos hv, if_neg (by rw [hc]; exact fun hcon => hcon rfl),
        if_neg (fun hcon => hcon rfl)]
      exact IH
    · rw [if_neg hv]
      exact IH

theorem fallbackOuter_none (html : List Char) (e : String) :
    ∀ rows : List PatRow,
      (∀ row ∈ rows, fallbackInner row e (findallPat row.pat html) = none) →
      fallbackOuter html e rows = none := by
  intro rows
  induction rows with
  | nil => intro _; rfl
  | cons row rs IH =>
    intro hall
    unfold fallbackOuter
    rw [hall row (List.mem_cons_self row rs)]
    exact IH (fun x hx => hall x (List.mem_cons_of_mem row hx))

/-- C10: in fallback extraction with an empty expected-currency hint, a
bare-number match never produces a price: when no currency-specific row
(the table minus its final bare-number row) has a match passing the lenient
validation, the result is the empty record — even if bare numbers validate.
With a hint present, the same text yields a price. -/
theorem C10_bare_number_needs_hint :
    (∀ html : String,
      (∀ row ∈ fallbackPatterns.dropLast, ∀ m ∈ findallPat row.pat html.data,
        is_valid_fallback_price (strOfL m) = false) →
      extract_fallback_price html ("") = emptyPrice) ∧
    (extract_fallback_price ("Price listed at 1299 total") ("") = emptyPrice ∧
     is_valid_fallback_price ("1299") = true ∧
     ("1299").data ∈ findallPat rowBareNumber.pat ("Price listed at 1299 total").data ∧
     extract_fallback_price ("Price listed at 1299 total") ("USD") =
       ⟨("$1299"), ("$1299"), ("USD")⟩) := by
  constructor
  · intro html hall
    have hsplit : fallbackPatterns = fallbackPatterns.dropLast ++ [rowBareNumber] := rfl
    have houter : fallbackOuter html.data ("") fallbackPatterns = none := by
      apply fallbackOuter_none
      intro row hrow
      rw [hsplit] at hrow
      rcases List.mem_append.mp hrow with h13 | hbare
      · exact fallbackInner_none_of_all_invalid row ("") _ (hall row h13)
      · have e := List.mem_singleton.mp hbare
        subst e
        exact fallbackInner_none_bare rowBareNumber rfl _
    unfold extract_fallback_price
    rw [houter]
  · exact ⟨by decide, by decide, by decide, by decide⟩

/-- Witness for C10: on text whose only price-like content is a bare
number, all currency-specific rows fail, and the hint-free result is the
empty record. -/
theorem C10_bare_number_needs_hint_witness :
    extract_fallback_price ("Price listed at 1299 total") ("") = emptyPrice :=
  C10_bare_number_needs_hint.1 ("Price listed at 1299 total") (by decide)

/-! ## Claim C2 — currency-pattern priority (corrected)

The loop inspects only the *leftmost* match of each pattern: if that match's
captured value fails validation the whole pattern is skipped, later matches
included.  Text whose first `₹` is followed by an invalid amount therefore
falls through to the pound pattern even though a valid rupee price occurs
later — refuting the claim's "in particular" clause as stated. -/

/-- A row contributes nothing: its leftmost match (if any) fails validation. -/
def rowFails (row : PatRow) (l : List Char) : Prop :=
  ∀ c, searchCap row.pat l = some c → is_valid_price (strOfL c) = false

theorem firstPassLoop_cons_some (html : List Char) (row : PatRow) (rs : List PatRow)
    (cap : List Char) (hs : searchCap row.pat html = some cap) :
    firstPassLoop html (row :: rs) =
      if is_valid_price (strOfL cap) = true then
        some ⟨row.symbol ++ strOfL cap, row.symbol ++ strOfL cap, row.code⟩
      else firstPassLoop html rs := by
  conv_lhs => unfold firstPassLoop
  rw [hs]

theorem firstPassLoop_cons_none (html : List Char) (row : PatRow) (rs : List PatRow)
    (hs : searchCap row.pat html = none) :
    firstPassLoop html (row :: rs) = firstPassLoop html rs := by
  conv_lhs => unfold firstPassLoop
  rw [hs]

/-- First-pattern-wins: the first row (in table order) whose leftmost match
validates determines the first-pass result. -/
theorem firstPassLoop_first_win (html : List Char) :
    ∀ (pre : List PatRow) (row : PatRow) (post : List PatRow) (cap : List Char),
      (∀ r ∈ pre, rowFails r html) →
      searchCap row.pat html = some cap → is_valid_price (strOfL cap) = true →
      firstPassLoop html (pre ++ row :: post) =
        some ⟨row.symbol ++ strOfL cap, row.symbol ++ strOfL cap, row.code⟩ := by
  intro pre
  induction pre with
  | nil =>
    intro row post cap _ hs hv
    rw [List.nil_append, firstPassLoop_cons_some html row post cap hs, if_pos hv]
  | cons r rs IH =>
    intro row post cap hpre hs hv
    rw [List.cons_append]
    have hr := hpre r (List.mem_cons_self r rs)
    cases hsr : searchCap r.pat html with
    | none =>
      rw [firstPassLoop_cons_none html r _ hsr]
      exact IH row post cap (fun x hx => hpre x (List.mem_cons_of_mem r hx)) hs hv
    | some c =>
      rw [firstPassLoop_cons_some html r _ c hsr,
        if_neg (by rw [hr c hsr]; exact Bool.false_ne_true)]
      exact IH row post cap (fun x hx => hpre x (List.mem_cons_of_mem r hx)) hs hv

/-- C2 counterexample: with expected currency INR, text containing a valid
rupee-formatted price (`₹2,499`) *and* a valid pound price (`£50`) is
classified GBP, because the leftmost rupee match (`₹0`) fails validation and
skips the whole rupee pattern. -/
theorem C2_pattern_priority_counterexample :
    expectedCurrencyFor ("https://www.amazon.in/dp/B08N5WRWNW") = ("INR") ∧
    containsSub ("a-price a-offscreen ₹0 see ₹2,499 and £50").data ("₹2,499").data = true ∧
    is_valid_price ("2,499") = true ∧
    containsSub ("a-price a-offscreen ₹0 see ₹2,499 and £50").data ("£50").data = true ∧
    is_valid_price ("50") = true ∧
    extract_price_with_currency ("a-price a-offscreen ₹0 see ₹2,499 and £50")
      ("https://www.amazon.in/dp/B08N5WRWNW") = ⟨("£50"), ("£50"), ("GBP")⟩ ∧
    (("GBP") : String) ≠ ("INR") := by
  decide

/-- C2 (amended): the table is INR-first exactly when the expected currency
is INR and GBP-first with INR last otherwise; among the currency-specific
patterns the first row in table order whose *leftmost* match passes range
validation wins immediately (later matches of an earlier pattern are never
inspected).  In particular, when the leftmost rupee-pattern match itself
validates and INR is expected, the result is INR; when INR is not expected
and the leftmost pound match validates, the result is GBP; and with no
pound-pattern contribution, a valid leftmost dollar match yields USD. -/
theorem C2_pattern_priority_amended :
    ((pricePatterns ("INR")).map (fun r => r.code) =
      [("INR"), ("INR"), ("INR"), ("GBP"), ("GBP"), ("USD"), ("USD"), ("EUR"), ("EUR"),
       ("CAD"), ("CAD"), ("AUD"), ("AUD"), (""), ("")]) ∧
    (∀ e : String, e ≠ ("INR") → (pricePatterns e).map (fun r => r.code) =
      [("GBP"), ("GBP"), ("USD"), ("USD"), ("EUR"), ("EUR"), ("CAD"), ("CAD"),
       ("AUD"), ("AUD"), ("INR"), ("INR"), ("INR"), (""), ("")]) ∧
    (∀ (html url : String) (pre : List PatRow) (row : PatRow) (post : List PatRow)
        (cap : List Char),
      has_real_product_data html = true →
      (pricePatterns (expectedCurrencyFor url)).dropLast.dropLast = pre ++ row :: post →
      (∀ r ∈ pre, rowFails r html.data) →
      searchCap row.pat html.data = some cap → is_valid_price (strOfL cap) = true →
      extract_price_with_currency html url =
        ⟨row.symbol ++ strOfL cap, row.symbol ++ strOfL cap, row.code⟩) ∧
    (∀ (html url : String) (cap : List Char),
      has_real_product_data html = true → expectedCurrencyFor url = ("INR") →
      searchCap rowRupeeSym.pat html.data = some cap → is_valid_price (strOfL cap) = true →
      (extract_price_with_currency html url).currency = ("INR")) ∧
    (∀ (html url : String) (cap : List Char),
      has_real_product_data html = true → expectedCurrencyFor url ≠ ("INR") →
      searchCap rowGbpSym.pat html.data = some cap → is_valid_price (strOfL cap) = true →
      (extract_price_with_currency html url).currency = ("GBP")) ∧
    (∀ (html url : String) (cap : List Char),
      has_real_product_data html = true → expectedCurrencyFor url ≠ ("INR") →
      rowFails rowGbpSym html.data → rowFails rowGbpCode html.data →
      searchCap rowUsdSym.pat html.data = some cap → is_valid_price (strOfL cap) = true →
      (extract_price_with_currency html url).currency = ("USD")) := by
  have main : ∀ (html url : String) (pre : List PatRow) (row : PatRow) (post : List PatRow)
      (cap : List Char),
      has_real_product_data html = true →
      (pricePatterns (expectedCurrencyFor url)).dropLast.dropLast = pre ++ row :: post →
      (∀ r ∈ pre, rowFails r html.data) →
      searchCap row.pat html.data = some cap → is_valid_price (strOfL cap) = true →
      extract_price_with_currency html url =
        ⟨row.symbol ++ strOfL cap, row.symbol ++ strOfL cap, row.code⟩ := by
    intro html url pre row post cap hreal htab hpre hs hv
    unfold extract_price_with_currency
    rw [if_neg (by rw [hreal]; exact fun hcon => Bool.noConfusion hcon)]
    rw [htab, firstPassLoop_first_win html.data pre row post cap hpre hs hv]
  refine ⟨rfl, ?_, main, ?_, ?_, ?_⟩
  · intro e he
    unfold pricePatterns
    rw [if_neg he]
    rfl
  · intro html url cap hreal he hs hv
    rw [main html url [] rowRupeeSym
      [rowRupeeRs, rowRupeeInr, rowGbpSym, rowGbpCode, rowUsdSym, rowUsdCode,
       rowEurSym, rowEurCode, rowCadSym, rowCadCode, rowAudSym, rowAudCode] cap hreal
      (by rw [he]; rfl) (fun r hr => absurd hr (List.not_mem_nil r)) hs hv]
    rfl
  · intro html url cap hreal he hs hv
    rw [main html url [] rowGbpSym
      [rowGbpCode, rowUsdSym, rowUsdCode, rowEurSym, rowEurCode, rowCadSym, rowCadCode,
       rowAudSym, rowAudCode, rowRupeeSym, rowRupeeRs, rowRupeeInr] cap hreal
      (by unfold pricePatterns; rw [if_neg he]; rfl)
      (fun r hr => absurd hr (List.not_mem_nil r)) hs hv]
    rfl
  · intro html url cap hreal he hf1 hf2 hs hv
    rw [main html url [rowGbpSym, rowGbpCode] rowUsdSym
      [rowUsdCode, rowEurSym, rowEurCode, rowCadSym, rowCadCode,
       rowAudSym, rowAudCode, rowRupeeSym, rowRupeeRs, rowRupeeInr] cap hreal
      (by unfold pricePatterns; rw [if_neg he]; rfl) ?_ hs hv]
    · rfl
    intro r hr
    rcases List.mem_cons.mp hr with e1 | hr'
    · exact e1 ▸ hf1
    rcases List.mem_cons.mp hr' with e2 | hr''
    · exact e2 ▸ hf2
    · exact absurd hr'' (List.not_mem_nil r)

/-- Witness for C2 (amended): an INR-expected page whose leftmost rupee
match is valid is classified INR. -/
theorem C2_pattern_priority_amended_witness :
    (extract_price_with_currency ("a-price a-offscreen ₹2,499 sale")
      ("https://www.amazon.in/dp/B08N5WRWNW")).currency = ("INR") :=
  C2_pattern_priority_amended.2.2.2.1 ("a-price a-offscreen ₹2,499 sale")
    ("https://www.amazon.in/dp/B08N5WRWNW") (("2,499").data)
    (by decide) (by decide) (by decide) (by decide)

/-! ## Claim C6 — identifier extraction -/

theorem mtch_eps {α : Type} (f : Nat) (s : List Char) (k : List Char → Option α)
    (hf : 0 < f) : mtch f .eps s k = k s := by
  cases f with
  | zero => omega
  | succ f => rfl

theorem mtch_eos_nil {α : Type} (f : Nat) (k : List Char → Option α) (hf : 0 < f) :
    mtch f .eos [] k = k [] := by
  cases f with
  | zero => omega
  | succ f => rfl

theorem mtch_eos_sound {α : Type} (f : Nat) (s : List Char) (k : List Char → Option α)
    (v : α) (h : mtch f .eos s k = some v) : s = [] ∧ k [] = some v := by
  cases f with
  | zero => simp [mtch] at h
  | succ f =>
    cases s with
    | nil => exact ⟨rfl, h⟩
    | cons c t => simp [mtch] at h

theorem fuelFor_pos (s : List Char) : 0 < fuelFor s := by
  unfold fuelFor
  omega

/-- Completeness of the anchored bare-identifier check: a 10-character
`[A-Z0-9]` string matches `^[A-Z0-9]{10}$`. -/
theorem bareAsin_complete (u : List Char) (hlen : u.length = 10)
    (hall : ∀ c ∈ u, isUpAlnum c = true) :
    matchPatAt bareAsinPat u = some (u, []) := by
  unfold matchPatAt bareAsinPat
  simp only
  rw [mtch_eps _ _ _ (fuelFor_pos u)]
  have hf2 : List.Forall₂ (fun p c => p c = true) (List.replicate 10 isUpAlnum) u :=
    (forall₂_replicate_iff 10 isUpAlnum u).mpr ⟨hlen, hall⟩
  have hstep : mtch (fuelFor u) (repCls 10 isUpAlnum) (u ++ []) (fun s2 =>
      mtch (fuelFor u) RE.eos s2 (fun s3 => some (u, s2, s3))) =
      mtch (fuelFor u) RE.eos [] (fun s3 => some (u, [], s3)) := by
    rw [repCls]
    exact clsChain_complete hf2 (fuelFor u) (by simp only [List.length_replicate]; unfold fuelFor; omega) [] _
  rw [List.append_nil] at hstep
  rw [hstep, mtch_eos_nil _ _ (fuelFor_pos u)]
  simp only [List.length_nil, Nat.sub_zero, List.take_length]

/-- Soundness of the anchored bare-identifier check. -/
theorem bareAsin_sound (u : List Char) (cap rest : List Char)
    (h : matchPatAt bareAsinPat u = some (cap, rest)) :
    u.length = 10 ∧ (∀ c ∈ u, isUpAlnum c = true) ∧ cap = u := by
  unfold matchPatAt bareAsinPat at h
  simp only at h
  rw [mtch_eps _ _ _ (fuelFor_pos u)] at h
  cases hm : mtch (fuelFor u) (repCls 10 isUpAlnum) u (fun s2 =>
      mtch (fuelFor u) RE.eos s2 (fun s3 => some (u, s2, s3))) with
  | none => rw [hm] at h; simp at h
  | some tr =>
    rw [hm] at h
    rw [repCls] at hm
    obtain ⟨w, t2, he, hf, hk⟩ := clsChain_sound _ _ _ _ _ hm
    obtain ⟨ht2, hk2⟩ := mtch_eos_sound _ _ _ _ hk
    subst ht2
    rw [List.append_nil] at he
    subst he
    obtain ⟨hlen, hall⟩ := (forall₂_replicate_iff 10 isUpAlnum u).mp hf
    obtain ⟨tr1, tr2, tr3⟩ := tr
    simp only [Option.some.injEq, Prod.mk.injEq] at h hk2
    obtain ⟨e1, e2, e3⟩ := hk2
    subst e1 e2 e3
    refine ⟨hlen, hall, ?_⟩
    rw [← h.1, List.length_nil, Nat.sub_zero, List.take_length]

theorem extractAsinLoop_cons_some (l : List Char) (p : Pat) (ps : List Pat)
    (cap : List Char) (hs : searchCap p l = some cap) :
    extractAsinLoop l (p :: ps) = some (strOfL (cap.map upChar)) := by
  conv_lhs => unfold extractAsinLoop
  rw [hs]

theorem extractAsinLoop_cons_none (l : List Char) (p : Pat) (ps : List Pat)
    (hs : searchCap p l = none) :
    extractAsinLoop l (p :: ps) = extractAsinLoop l ps := by
  conv_lhs => unfold extractAsinLoop
  rw [hs]

/-- A character matching a case-folded class of a non-letter literal
character is that character itself. -/
theorem cls_ci_nonletter {x t : Char} (ht : lowChar t = t)
    (htl : ∀ d : Char, d.isLower = true → t ≠ d)
    (h : decide (lowChar x = lowChar t) = true) : x = t :=
  lowChar_eq_nonletter ht htl (of_decide_eq_true h)

/-- If a pattern whose `pre` is a case-insensitive literal matched inside
`l`, then for every non-letter character at position `i` of the literal,
that character occurs in `l`. -/
theorem searchCap_pre_char (p : Pat) (lit : List Char) (t : Char)
    (hg : p.pre = reLitCI lit) (i : Nat) (hi : i < lit.length)
    (hlit : lit.get ⟨i, hi⟩ = t)
    (ht : lowChar t = t) (htl : ∀ d : Char, d.isLower = true → t ≠ d)
    (l : List Char) (cap : List Char) (h : searchCap p l = some cap) : t ∈ l := by
  obtain ⟨tt, rest, hsuf, hm⟩ := searchCap_sound p l cap h
  obtain ⟨u, t2, he, hf⟩ := matchPatAt_pre p
    (lit.map (fun c => fun x => decide (lowChar x = lowChar c))) hg tt cap rest hm
  have hlen : u.length = lit.length := by
    have := List.Forall₂.length_eq hf
    simpa using this.symm
  have hx : decide (lowChar (u.get ⟨i, by omega⟩) = lowChar (lit.get ⟨i, hi⟩)) = true := by
    have hget := List.forall₂_iff_get.mp hf
    have := hget.2 i (by simpa using hi) (by omega)
    simpa using this
  rw [hlit] at hx
  have hxe : u.get ⟨i, by omega⟩ = t := cls_ci_nonletter ht htl hx
  have hmem : t ∈ u := hxe ▸ List.get_mem u i _
  exact hsuf.subset (he ▸ List.mem_append_left t2 hmem)

/-- The bare-identifier branch of `extract_asin` cannot fire when a
non-alphanumeric character occurs in the stripped input. -/
theorem bare_branch_false {l : List Char} {t : Char} (hmem : t ∈ l)
    (hup : upChar t = t) (hnot : isUpAlnum t = false) :
    (matchPatAt bareAsinPat (l.map upChar)).isSome = false := by
  cases hb : matchPatAt bareAsinPat (l.map upChar) with
  | none => rfl
  | some pr =>
    exfalso
    obtain ⟨cap, rest⟩ := pr
    obtain ⟨_, hall, _⟩ := bareAsin_sound _ _ _ hb
    have : isUpAlnum (upChar t) = true := hall (upChar t) (List.mem_map_of_mem upChar hmem)
    rw [hup] at this
    rw [hnot] at this
    exact Bool.noConfusion this

theorem not_lower_char (t : Char) (h : t.isLower = false) :
    ∀ d : Char, d.isLower = true → t ≠ d := by
  intro d hd e
  rw [e, hd] at h
  exact Bool.noConfusion h

theorem upChar_upalnum_rev (c : Char) (h : isUpAlnum (upChar c) = true) :
    alnumCI c = true := by
  cases hl : c.isLower with
  | true => simp [alnumCI, hl]
  | false =>
    rw [upChar_id_of_not_lower c hl] at h
    unfold isUpAlnum at h
    unfold alnumCI
    rcases Bool.or_eq_true _ _ |>.mp h with h1 | h2
    · simp [h1]
    · simp [h2]

theorem extractAsinLoop_none (l : List Char) :
    ∀ ps : List Pat, (∀ p ∈ ps, searchCap p l = none) → extractAsinLoop l ps = none := by
  intro ps
  induction ps with
  | nil => intro _; rfl
  | cons p t IH =>
    intro hall
    rw [extractAsinLoop_cons_none l p t (hall p (List.mem_cons_self p t))]
    exact IH (fun x hx => hall x (List.mem_cons_of_mem p hx))

theorem asinPatterns_grp : ∀ p ∈ asinPatterns, p.grp = asinGroup := by
  intro p h
  unfold asinPatterns at h
  simp only [List.mem_cons, List.not_mem_nil, or_false] at h
  rcases h with e|e|e|e|e|e|e <;> (subst e; rfl)

/-- C6: identifier extraction.  A trimmed 10-character alphanumeric input is
returned uppercased; a `/dp/` URL returns the captured code (uppercased);
`/gp/product/` and `asin=` do so when the earlier patterns have no match;
with no bare code and no pattern match the result is `none`; and every
returned identifier is a 10-character `[A-Z0-9]` string. -/
theorem C6_identifier_extraction :
    (∀ s : String, (pyStrip s.data).length = 10 →
      (∀ c ∈ pyStrip s.data, alnumCI c = true) →
      extract_asin s = some (strOfL ((pyStrip s.data).map upChar))) ∧
    (∀ (s : String) (cap : List Char), searchCap patDp (pyStrip s.data) = some cap →
      extract_asin s = some (strOfL (cap.map upChar))) ∧
    (∀ (s : String) (cap : List Char), searchCap patDp (pyStrip s.data) = none →
      searchCap patGp (pyStrip s.data) = some cap →
      extract_asin s = some (strOfL (cap.map upChar))) ∧
    (∀ (s : String) (cap : List Char), searchCap patDp (pyStrip s.data) = none →
      searchCap patGp (pyStrip s.data) = none →
      searchCap patAsinSeg (pyStrip s.data) = none →
      searchCap patProduct (pyStrip s.data) = none →
      searchCap patDSeg (pyStrip s.data) = none →
      searchCap patAsinEq (pyStrip s.data) = some cap →
      extract_asin s = some (strOfL (cap.map upChar))) ∧
    (∀ s : String,
      ¬((pyStrip s.data).length = 10 ∧ ∀ c ∈ pyStrip s.data, alnumCI c = true) →
      (∀ p ∈ asinPatterns, searchCap p (pyStrip s.data) = none) →
      extract_asin s = none) ∧
    (∀ (s r : String), extract_asin s = some r →
      r.data.length = 10 ∧ ∀ c ∈ r.data, isUpAlnum c = true) := by
  have hbare_false : ∀ s : String,
      (∃ t ∈ pyStrip s.data, upChar t = t ∧ isUpAlnum t = false) →
      (matchPatAt bareAsinPat ((pyStrip s.data).map upChar)).isSome = false := by
    intro s ⟨t, hmem, hup, hnot⟩
    exact bare_branch_false hmem hup hnot
  refine ⟨?_, ?_, ?_, ?_, ?_, ?_⟩
  · intro s hlen hall
    unfold extract_asin
    have hmap : ((pyStrip s.data).map upChar).length = 10 := by
      rw [List.length_map]; exact hlen
    have hmall : ∀ c ∈ (pyStrip s.data).map upChar, isUpAlnum c = true := by
      intro c hc
      obtain ⟨d, hd, he⟩ := List.mem_map.mp hc
      rw [← he]
      exact upChar_upalnum d (hall d hd)
    rw [bareAsin_complete _ hmap hmall]
    rfl
  · intro s cap hs
    have hmem : '/' ∈ pyStrip s.data :=
      searchCap_pre_char patDp (("/dp/").data) '/' rfl 0 (by decide) (by decide)
        (by decide) (not_lower_char '/' (by decide)) (pyStrip s.data) cap hs
    have hb := bare_branch_false hmem (by decide) (by decide)
    unfold extract_asin
    rw [if_neg (by rw [hb]; exact Bool.false_ne_true)]
    unfold asinPatterns
    rw [extractAsinLoop_cons_some _ _ _ cap hs]
  · intro s cap h1 hs
    have hmem : '/' ∈ pyStrip s.data :=
      searchCap_pre_char patGp (("/gp/product/").data) '/' rfl 0 (by decide) (by decide)
        (by decide) (not_lower_char '/' (by decide)) (pyStrip s.data) cap hs
    have hb := bare_branch_false hmem (by decide) (by decide)
    unfold extract_asin
    rw [if_neg (by rw [hb]; exact Bool.false_ne_true)]
    unfold asinPatterns
    rw [extractAsinLoop_cons_none _ _ _ h1, extractAsinLoop_cons_some _ _ _ cap hs]
  · intro s cap h1 h2 h3 h4 h5 hs
    have hmem : '=' ∈ pyStrip s.data :=
      searchCap_pre_char patAsinEq (("asin=").data) '=' rfl 4 (by decide) (by decide)
        (by decide) (not_lower_char '=' (by decide)) (pyStrip s.data) cap hs
    have hb := bare_branch_false hmem (by decide) (by decide)
    unfold extract_asin
    rw [if_neg (by rw [hb]; exact Bool.false_ne_true)]
    unfold asinPatterns
    rw [extractAsinLoop_cons_none _ _ _ h1, extractAsinLoop_cons_none _ _ _ h2,
      extractAsinLoop_cons_none _ _ _ h3, extractAsinLoop_cons_none _ _ _ h4,
      extractAsinLoop_cons_none _ _ _ h5, extractAsinLoop_cons_some _ _ _ cap hs]
  · intro s hnot hall
    unfold extract_asin
    have hb : (matchPatAt bareAsinPat ((pyStrip s.data).map upChar)).isSome = false := by
      cases hm : matchPatAt bareAsinPat ((pyStrip s.data).map upChar) with
      | none => rfl
      | some pr =>
        exfalso
        obtain ⟨cap, rest⟩ := pr
        obtain ⟨hlen, hma, _⟩ := bareAsin_sound _ _ _ hm
        refine hnot ⟨by rw [List.length_map] at hlen; exact hlen, ?_⟩
        intro c hc
        refine upChar_upalnum_rev c (hma (upChar c) ?_)
        exact List.mem_map_of_mem upChar hc
    rw [if_neg (by rw [hb]; exact Bool.false_ne_true)]
    exact extractAsinLoop_none _ asinPatterns hall
  · intro s r h
    unfold extract_asin at h
    by_cases hb : (matchPatAt bareAsinPat ((pyStrip s.data).map upChar)).isSome = true
    · rw [if_pos hb] at h
      obtain ⟨pr, hpr⟩ := Option.isSome_iff_exists.mp hb
      obtain ⟨cap, rest⟩ := pr
      obtain ⟨hlen, hma, _⟩ := bareAsin_sound _ _ _ hpr
      injection h with h
      subst h
      exact ⟨hlen, hma⟩
    · rw [if_neg hb] at h
      have hgen : ∀ ps : List Pat, (∀ p ∈ ps, p.grp = asinGroup) →
          extractAsinLoop (pyStrip s.data) ps = some r →
          r.data.length = 10 ∧ ∀ c ∈ r.data, isUpAlnum c = true := by
        intro ps
        induction ps with
        | nil => intro _ hc; simp [extractAsinLoop] at hc
        | cons p t IH =>
          intro hg hc
          cases hsp : searchCap p (pyStrip s.data) with
          | none =>
            rw [extractAsinLoop_cons_none _ _ _ hsp] at hc
            exact IH (fun x hx => hg x (List.mem_cons_of_mem p hx)) hc
          | some cap =>
            rw [extractAsinLoop_cons_some _ _ _ cap hsp] at hc
            injection hc with hc
            subst hc
            obtain ⟨tt, rest, _, hm⟩ := searchCap_sound p _ cap hsp
            have hgrp : p.grp = clsChain (List.replicate 10 alnumCI) :=
              hg p (List.mem_cons_self p t)
            have hf := matchPatAt_grp p (List.replicate 10 alnumCI) hgrp tt cap rest hm
            obtain ⟨hlen, hallc⟩ := (forall₂_replicate_iff 10 alnumCI cap).mp hf
            constructor
            · show (cap.map upChar).length = 10
              rw [List.length_map]; exact hlen
            · intro c hc
              obtain ⟨d, hd, he⟩ := List.mem_map.mp hc
              rw [← he]
              exact upChar_upalnum d (hallc d hd)
      exact hgen asinPatterns asinPatterns_grp h

/-- Witness for C6 at concrete inputs: a bare lowercase code with
whitespace, a `/dp/` URL, a lowercase `/gp/product/` URL with a query, an
`asin=` query URL, and an identifier-free URL. -/
theorem C6_identifier_extraction_witness :
    extract_asin (" b08n5wrwnw ") = some ("B08N5WRWNW") ∧
    extract_asin ("https://www.amazon.com/dp/B08N5WRWNW") = some ("B08N5WRWNW") ∧
    extract_asin ("https://www.amazon.in/gp/product/b000123abc?x=1") = some ("B000123ABC") ∧
    extract_asin ("https://www.amazon.com/?asin=B08N5WRWNW") = some ("B08N5WRWNW") ∧
    extract_asin ("https://www.amazon.com/") = none := by
  refine ⟨?_, ?_, ?_, ?_, ?_⟩
  · rw [C6_identifier_extraction.1 (" b08n5wrwnw ") (by decide) (by decide)]
    decide
  · rw [C6_identifier_extraction.2.1 ("https://www.amazon.com/dp/B08N5WRWNW")
      (("B08N5WRWNW").data) (by decide)]
    decide
  · rw [C6_identifier_extraction.2.2.1 ("https://www.amazon.in/gp/product/b000123abc?x=1")
      (("b000123abc").data) (by decide) (by decide)]
    decide
  · rw [C6_identifier_extraction.2.2.2.1 ("https://www.amazon.com/?asin=B08N5WRWNW")
      (("B08N5WRWNW").data) (by decide) (by decide) (by decide) (by decide) (by decide)
      (by decide)]
    decide
  · exact C6_identifier_extraction.2.2.2.2.1 ("https://www.amazon.com/")
      (by decide) (by decide)

/-! ## Claim C9 — enhanced-parser image URLs (corrected)

The final deduplication is not capped, but the cleaning loop iterates over
`image_urls[:10]` (line 814), so raw matches beyond the tenth are dropped —
refuting "every distinct matched URL appears". -/

theorem dedupFirstAux_mem (u : String) :
    ∀ (l seen : List String), u ∈ dedupFirstAux seen l ↔ (u ∈ l ∧ u ∉ seen) := by
  intro l
  induction l with
  | nil => intro seen; simp [dedupFirstAux]
  | cons x xs IH =>
    intro seen
    unfold dedupFirstAux
    by_cases hx : x ∈ seen
    · rw [if_pos hx, IH seen]
      simp only [List.mem_cons]
      constructor
      · rintro ⟨h1, h2⟩
        exact ⟨Or.inr h1, h2⟩
      · rintro ⟨h1, h2⟩
        rcases h1 with e | h1
        · exact absurd (e ▸ hx) h2
        · exact ⟨h1, h2⟩
    · rw [if_neg hx]
      simp only [List.mem_cons, IH (x :: seen), List.mem_cons]
      constructor
      · rintro (e | ⟨h1, h2⟩)
        · exact ⟨Or.inl e, e ▸ hx⟩
        · exact ⟨Or.inr h1, fun hc => h2 (Or.inr hc)⟩
      · rintro ⟨h1, h2⟩
        rcases h1 with e | h1
        · exact Or.inl e
        · by_cases he : u = x
          · exact Or.inl he
          · exact Or.inr ⟨h1, fun hc => (by rcases hc with hc | hc; exact he hc; exact h2 hc)⟩

theorem dedupFirstAux_nodup :
    ∀ (l seen : List String), (dedupFirstAux seen l).Nodup := by
  intro l
  induction l with
  | nil => intro seen; exact List.nodup_nil
  | cons x xs IH =>
    intro seen
    unfold dedupFirstAux
    by_cases hx : x ∈ seen
    · rw [if_pos hx]
      exact IH seen
    · rw [if_neg hx]
      refine List.nodup_cons.mpr ⟨?_, IH (x :: seen)⟩
      intro hc
      exact ((dedupFirstAux_mem x xs (x :: seen)).mp hc).2 (List.mem_cons_self x seen)

theorem foldl_append_bind (f : String → List String) :
    ∀ (l : List String) (init : List String),
      l.foldl (fun acc u => acc ++ f u) init = init ++ l.flatMap f := by
  intro l
  induction l with
  | nil => intro init; simp
  | cons x xs IH =>
    intro init
    simp only [List.foldl_cons, List.flatMap_cons, IH, List.append_assoc]

/-- The HTML used by the C9 counterexample: eleven distinct raw
`data-old-hires` image URLs. -/
def imgCapHtml : String :=
  ("data-old-hires=\"u01\" data-old-hires=\"u02\" data-old-hires=\"u03\" " ++
   "data-old-hires=\"u04\" data-old-hires=\"u05\" data-old-hires=\"u06\" " ++
   "data-old-hires=\"u07\" data-old-hires=\"u08\" data-old-hires=\"u09\" " ++
   "data-old-hires=\"u10\" data-old-hires=\"u11\"")

/-- C9 counterexample: the eleventh distinct URL matched by the first image
pattern does not appear in the output, which is capped at the first ten raw
matches. -/
theorem C9_image_urls_counterexample :
    ("u11") ∈ (findallPat imgPat1 imgCapHtml.data).map strOfL ∧
    ("u11") ∉ enhanced_image_urls imgCapHtml ∧
    (enhanced_image_urls imgCapHtml).length = 10 := by
  decide

/-- C9 (amended): the `image_urls` list of the enhanced parser is
duplicate-free, and its members are exactly the URLs obtained by unwrapping
the first ten collected raw matches — raw matches beyond the tenth are
dropped by the `[:10]` slice before cleaning. -/
theorem C9_image_urls_amended (html : String) :
    (enhanced_image_urls html).Nodup ∧
    (∀ u : String, u ∈ enhanced_image_urls html ↔
      ∃ x ∈ (collectImgs html.data).take 10, u ∈ unwrapUrl x) := by
  constructor
  · exact dedupFirstAux_nodup _ []
  · intro u
    unfold enhanced_image_urls dedupFirst
    rw [dedupFirstAux_mem]
    rw [foldl_append_bind unwrapUrl ((collectImgs html.data).take 10) []]
    simp only [List.nil_append, List.mem_flatMap, List.not_mem_nil, not_false_eq_true,
      and_true]

/-! ## Claim C8 — description cleaning (corrected)

Cleaning is not idempotent: tag removal can expose a boilerplate prefix
(e.g. `<b>About this item</b> hi` cleans to `About this item hi`, which a
second pass strips to `hi`), and entity decoding can likewise produce new
entities.  Idempotence does hold for outputs free of those artefacts: the
whitespace normalisation of the final pass is a projection. -/

def allSpChar (l : List Char) : Prop := ∀ c ∈ l, isSp c = true → c = ' '

def noDoubleSp (l : List Char) : Prop :=
  List.Chain' (fun a b => ¬(isSp a = true ∧ isSp b = true)) l

def headNonSp (l : List Char) : Prop := ∀ c, l.head? = some c → isSp c = false

def lastNonSp (l : List Char) : Prop := ∀ c, l.getLast? = some c → isSp c = false

theorem bool_not_true {b : Bool} (h : ¬b = true) : b = false := by
  cases b
  · rfl
  · exact absurd rfl h

theorem collapseAux_true_head :
    ∀ (l : List Char) (c : Char), (collapseWsAux true l).head? = some c → isSp c = false := by
  intro l
  induction l with
  | nil => intro c h; simp [collapseWsAux] at h
  | cons d t IH =>
    intro c h
    unfold collapseWsAux at h
    by_cases hd : isSp d = true
    · rw [if_pos hd] at h
      rw [if_pos rfl] at h
      exact IH c h
    · rw [if_neg hd] at h
      simp only [List.head?_cons, Option.some.injEq] at h
      subst h
      exact bool_not_true hd

theorem collapseAux_allSp : ∀ (b : Bool) (l : List Char), allSpChar (collapseWsAux b l) := by
  intro b l
  induction l generalizing b with
  | nil => intro c hc; simp [collapseWsAux] at hc
  | cons d t IH =>
    intro c hc hsp
    unfold collapseWsAux at hc
    by_cases hd : isSp d = true
    · rw [if_pos hd] at hc
      cases b with
      | true =>
        rw [if_pos rfl] at hc
        exact IH true c hc hsp
      | false =>
        rw [if_neg (by simp)] at hc
        rcases List.mem_cons.mp hc with e | hc'
        · exact e
        · exact IH true c hc' hsp
    · rw [if_neg hd] at hc
      rcases List.mem_cons.mp hc with e | hc'
      · subst e; exact absurd hsp hd
      · exact IH false c hc' hsp

theorem collapseAux_noDouble : ∀ (b : Bool) (l : List Char), noDoubleSp (collapseWsAux b l) := by
  intro b l
  induction l generalizing b with
  | nil => exact List.chain'_nil
  | cons d t IH =>
    unfold collapseWsAux
    by_cases hd : isSp d = true
    · rw [if_pos hd]
      cases b with
      | true =>
        rw [if_pos rfl]
        exact IH true
      | false =>
        rw [if_neg (by simp)]
        refine List.chain'_cons'.mpr ⟨?_, IH true⟩
        intro y hy
        rw [collapseAux_true_head t y hy]
        simp
    · rw [if_neg hd]
      refine List.chain'_cons'.mpr ⟨?_, IH false⟩
      intro y hy
      simp only [hd]
      simp

/-- Identity of whitespace collapsing on normalised text (paired with the
in-run variant for the induction to go through). -/
theorem collapseAux_id :
    ∀ l : List Char, allSpChar l → noDoubleSp l → lastNonSp l →
      (collapseWsAux false l = l ∧ (headNonSp l → collapseWsAux true l = l)) := by
  intro l
  induction l with
  | nil => exact fun _ _ _ => ⟨rfl, fun _ => rfl⟩
  | cons c t IH =>
    intro hA hN hL
    have hAt : allSpChar t := fun x hx => hA x (List.mem_cons_of_mem c hx)
    have hNt : noDoubleSp t := (List.chain'_cons'.mp hN).2
    have hLt : lastNonSp t := by
      intro x hx
      cases t with
      | nil => simp at hx
      | cons d t' =>
        exact hL x (by rw [List.getLast?_cons_cons]; exact hx)
    obtain ⟨IH1, IH2⟩ := IH hAt hNt hLt
    constructor
    · unfold collapseWsAux
      by_cases hc : isSp c = true
      · rw [if_pos hc, if_neg (by simp)]
        have hce : c = ' ' := hA c (List.mem_cons_self c t) hc
        cases t with
        | nil =>
          exfalso
          have := hL c (by simp)
          rw [hc] at this
          exact Bool.noConfusion this
        | cons d t' =>
          have hdn : isSp d = false := by
            have h1 := (List.chain'_cons'.mp hN).1 d (by simp)
            cases hv : isSp d
            · rfl
            · exact absurd ⟨hc, hv⟩ h1
          rw [IH2 (fun x hx => by
            simp only [List.head?_cons, Option.some.injEq] at hx
            rw [hx] at hdn
            exact hdn)]
          rw [hce]
      · rw [if_neg hc, IH1]
    · intro hH
      have hc : isSp c = false := hH c rfl
      unfold collapseWsAux
      rw [if_neg (by rw [hc]; exact Bool.false_ne_true), IH1]

theorem dropWhile_noDouble (l : List Char) (h : noDoubleSp l) :
    noDoubleSp (l.dropWhile (fun c => isSp c)) := by
  induction l with
  | nil => exact h
  | cons c t IH =>
    rw [List.dropWhile_cons]
    by_cases hc : isSp c = true
    · rw [if_pos hc]
      exact IH (List.chain'_cons'.mp h).2
    · rw [if_neg hc]
      exact h

theorem dropWhile_mem {l : List Char} {c : Char} (h : c ∈ l.dropWhile (fun x => isSp x)) :
    c ∈ l :=
  (List.dropWhile_sublist (fun x => isSp x)).subset h

theorem dropWhile_headNonSp (l : List Char) :
    headNonSp (l.dropWhile (fun c => isSp c)) := by
  induction l with
  | nil => intro c h; simp at h
  | cons c t IH =>
    rw [List.dropWhile_cons]
    by_cases hc : isSp c = true
    · rw [if_pos hc]
      exact IH
    · rw [if_neg hc]
      intro x hx
      simp only [List.head?_cons, Option.some.injEq] at hx
      subst hx
      exact bool_not_true hc

theorem dropTrailingWs_prefix_self : ∀ l : List Char, dropTrailingWs l <+: l := by
  intro l
  induction l with
  | nil => exact List.prefix_refl []
  | cons c t IH =>
    unfold dropTrailingWs
    by_cases hc : ((dropTrailingWs t).isEmpty && isSp c) = true
    · rw [if_pos hc]
      exact List.nil_prefix
    · rw [if_neg hc]
      exact (List.cons_prefix_cons).mpr ⟨rfl, IH⟩

theorem dropTrailingWs_lastNonSp : ∀ l : List Char, lastNonSp (dropTrailingWs l) := by
  intro l
  induction l with
  | nil => intro c h; simp [dropTrailingWs] at h
  | cons c t IH =>
    intro x hx
    unfold dropTrailingWs at hx
    by_cases hc : ((dropTrailingWs t).isEmpty && isSp c) = true
    · rw [if_pos hc] at hx
      simp at hx
    · rw [if_neg hc] at hx
      cases hdt : dropTrailingWs t with
      | nil =>
        rw [hdt] at hx
        simp only [List.getLast?_singleton, Option.some.injEq] at hx
        subst hx
        rw [hdt] at hc
        simp only [List.isEmpty_nil, Bool.true_and] at hc
        exact bool_not_true hc
      | cons d t' =>
        rw [hdt, List.getLast?_cons_cons] at hx
        refine IH x ?_
        rw [hdt]
        exact hx

theorem pyStrip_allSp {l : List Char} (h : allSpChar l) : allSpChar (pyStrip l) := by
  intro c hc hsp
  exact h c (dropWhile_mem ((dropTrailingWs_prefix_self _).subset hc)) hsp

theorem pyStrip_noDouble {l : List Char} (h : noDoubleSp l) : noDoubleSp (pyStrip l) := by
  have h1 := dropWhile_noDouble l h
  obtain ⟨t', he⟩ := dropTrailingWs_prefix_self (l.dropWhile (fun c => isSp c))
  rw [← he] at h1
  exact (List.chain'_append.mp h1).1

theorem pyStrip_headNonSp (l : List Char) : headNonSp (pyStrip l) := by
  intro c hc
  have hc' : (dropTrailingWs (l.dropWhile (fun c => isSp c))).head? = some c := hc
  obtain ⟨t', he⟩ := dropTrailingWs_prefix_self (l.dropWhile (fun c => isSp c))
  refine dropWhile_headNonSp l c ?_
  rw [← he]
  cases hdt : dropTrailingWs (l.dropWhile (fun c => isSp c)) with
  | nil =>
    rw [hdt] at hc'
    simp at hc'
  | cons d r =>
    rw [hdt] at hc'
    simp only [List.head?_cons, Option.some.injEq] at hc'
    rw [← hc']
    simp

theorem pyStrip_lastNonSp (l : List Char) : lastNonSp (pyStrip l) :=
  dropTrailingWs_lastNonSp _

theorem dropWhile_id_of_headNonSp {l : List Char} (h : headNonSp l) :
    l.dropWhile (fun c => isSp c) = l := by
  cases l with
  | nil => rfl
  | cons c t =>
    rw [List.dropWhile_cons, if_neg (by rw [h c rfl]; exact Bool.false_ne_true)]

theorem dropTrailingWs_id_of_lastNonSp : ∀ l : List Char, lastNonSp l → dropTrailingWs l = l := by
  intro l
  induction l with
  | nil => intro _; rfl
  | cons c t IH =>
    intro hL
    cases t with
    | nil =>
      have hc : isSp c = false := hL c (by simp)
      show (if ((dropTrailingWs []).isEmpty && isSp c) = true then []
            else c :: dropTrailingWs []) = [c]
      rw [hc]
      simp [dropTrailingWs]
    | cons d t' =>
      have hLt : lastNonSp (d :: t') := by
        intro x hx
        refine hL x ?_
        rw [List.getLast?_cons_cons]
        exact hx
      show (if ((dropTrailingWs (d :: t')).isEmpty && isSp c) = true then []
            else c :: dropTrailingWs (d :: t')) = c :: d :: t'
      rw [IH hLt]
      simp

/-- Stripping and collapsing is a projection: applying it to its own output
changes nothing. -/
theorem pyStrip_collapse_idem (w : List Char) :
    pyStrip (collapseWs (pyStrip (collapseWs w))) = pyStrip (collapseWs w) := by
  have hA : allSpChar (pyStrip (collapseWs w)) := pyStrip_allSp (collapseAux_allSp false w)
  have hN : noDoubleSp (pyStrip (collapseWs w)) := pyStrip_noDouble (collapseAux_noDouble false w)
  have hH : headNonSp (pyStrip (collapseWs w)) := pyStrip_headNonSp (collapseWs w)
  have hL : lastNonSp (pyStrip (collapseWs w)) := pyStrip_lastNonSp (collapseWs w)
  have h1 : collapseWs (pyStrip (collapseWs w)) = pyStrip (collapseWs w) :=
    (collapseAux_id _ hA hN hL).1
  rw [h1]
  show dropTrailingWs ((pyStrip (collapseWs w)).dropWhile (fun c => isSp c)) = pyStrip (collapseWs w)
  rw [dropWhile_id_of_headNonSp hH, dropTrailingWs_id_of_lastNonSp _ hL]

theorem strOfL_data (l : List Char) : (strOfL l).data = l := rfl

theorem strOfL_of_data (y : String) : strOfL y.data = y := rfl

theorem replaceAllF_id : ∀ (f : Nat) (n r s : List Char), containsSub s n = false →
    replaceAllF f n r s = s := by
  intro f
  induction f with
  | zero => intro n r s _; rfl
  | succ f IH =>
    intro n r s h
    cases s with
    | nil => rfl
    | cons c t =>
      have h2 : (n.isPrefixOf (c :: t) || containsSub t n) = false := h
      have hsplit := Bool.or_eq_false_iff.mp h2
      have hcond : ¬(n ≠ [] ∧ n.isPrefixOf (c :: t) = true) := by
        intro hcontra
        rw [hsplit.1] at hcontra
        exact Bool.noConfusion hcontra.2
      show (if n ≠ [] ∧ n.isPrefixOf (c :: t) then r ++ replaceAllF f n r (t.drop (n.length - 1))
            else c :: replaceAllF f n r t) = c :: t
      rw [if_neg hcond, IH n r t hsplit.2]

/-- `str.replace` is the identity when the needle does not occur. -/
theorem replaceAll_id (n r s : List Char) (h : containsSub s n = false) :
    replaceAll n r s = s := replaceAllF_id s.length n r s h

/-- The boilerplate-prefix loop is the identity when no prefix matches. -/
theorem stripPrefixes_id : ∀ (ps : List String) (d : List Char),
    (∀ p ∈ ps, p.data.isPrefixOf d = false) → stripPrefixes ps d = d := by
  intro ps
  induction ps with
  | nil => intro d _; rfl
  | cons p ps IH =>
    intro d h
    show stripPrefixes ps (if p.data.isPrefixOf d then pyStrip (d.drop p.data.length) else d) = d
    rw [if_neg (by rw [h p (List.mem_cons_self p ps)]; exact Bool.false_ne_true)]
    exact IH d (fun q hq => h q (List.mem_cons_of_mem p hq))

/-- Every output of `_clean_description` ends in a strip-and-collapse pass. -/
theorem clean_description_shape (s : String) :
    ∃ w, (clean_description s).data = pyStrip (collapseWs w) := by
  by_cases hs : s.data.isEmpty
  · refine ⟨[], ?_⟩
    unfold clean_description
    rw [if_pos hs]
    rfl
  · refine ⟨removeTags (
      replaceAll ("&nbsp;").data (" ").data (
      replaceAll ("&gt;").data (">").data (
      replaceAll ("&lt;").data ("<").data (
      replaceAll ("&#39;").data ("\x27").data (
      replaceAll ("&quot;").data ("\"").data (
      replaceAll ("&amp;").data ("&").data (
      pyStrip (collapseWs (stripPrefixes prefixes_to_remove s.data))))))))), ?_⟩
    unfold clean_description
    rw [if_neg hs]
    rw [strOfL_data]

theorem clean_description_fixed (y : String)
    (hs : ∃ w, y.data = pyStrip (collapseWs w))
    (hP : ∀ p ∈ prefixes_to_remove, p.data.isPrefixOf y.data = false)
    (hE : ∀ n ∈ [("&amp;"), ("&quot;"), ("&#39;"), ("&lt;"), ("&gt;"), ("&nbsp;")],
      containsSub y.data (String.data n) = false)
    (hT : removeTags y.data = y.data) :
    clean_description y = y := by
  obtain ⟨w, hw⟩ := hs
  by_cases h0 : y.data.isEmpty
  · have hd : y.data = [] := by
      cases hdd : y.data
      · rfl
      · rw [hdd] at h0
        exact Bool.noConfusion h0
    have hy0 : y = ("") := by
      have h1 : String.mk y.data = ("") := by rw [hd]
      exact h1
    rw [hy0]
    rfl
  · have hidem1 : pyStrip (collapseWs y.data) = y.data := by
      rw [hw]
      exact pyStrip_collapse_idem w
    unfold clean_description
    rw [if_neg h0]
    rw [stripPrefixes_id _ _ hP]
    rw [hidem1]
    rw [replaceAll_id _ _ _ (hE ("&amp;") (by simp))]
    rw [replaceAll_id _ _ _ (hE ("&quot;") (by simp))]
    rw [replaceAll_id _ _ _ (hE ("&#39;") (by simp))]
    rw [replaceAll_id _ _ _ (hE ("&lt;") (by simp))]
    rw [replaceAll_id _ _ _ (hE ("&gt;") (by simp))]
    rw [replaceAll_id _ _ _ (hE ("&nbsp;") (by simp))]
    rw [hT]
    rw [hidem1]
    exact strOfL_of_data y

/-- C8 (counterexample): `_clean_description` is not idempotent — tag removal
can expose a boilerplate prefix that only the second pass strips, so
`<b>About this item</b> hi` cleans to `About this item hi` and a second
cleaning gives `hi`. -/
theorem C8_clean_description_counterexample :
    clean_description (clean_description ("<b>About this item</b> hi")) ≠
      clean_description ("<b>About this item</b> hi") ∧
    clean_description ("<b>About this item</b> hi") = ("About this item hi") ∧
    clean_description ("About this item hi") = ("hi") := by decide

/-- C8 (amended): cleaning is idempotent on every input whose cleaned form
exposes no boilerplate prefix, contains none of the six decoded HTML
entities, and is already a fixed point of tag removal; the final
strip-and-collapse pass itself is always a projection. -/
theorem C8_clean_description_amended (s : String)
    (hP : ∀ p ∈ prefixes_to_remove, p.data.isPrefixOf (clean_description s).data = false)
    (hE : ∀ n ∈ [("&amp;"), ("&quot;"), ("&#39;"), ("&lt;"), ("&gt;"), ("&nbsp;")],
      containsSub (clean_description s).data (String.data n) = false)
    (hT : removeTags (clean_description s).data = (clean_description s).data) :
    clean_description (clean_description s) = clean_description s :=
  clean_description_fixed (clean_description s) (clean_description_shape s) hP hE hT

theorem C8_clean_description_amended_witness :
    clean_description (clean_description ("hello   world")) = clean_description ("hello   world") :=
  C8_clean_description_amended ("hello   world") (by decide) (by decide) (by decide)

end AmazonAgent
